import Mathlib

/-!
# Verification of the packcircles C++ core

A shallow embedding, in Lean 4, of the four algorithmic components of the
packcircles repository:

* `src/packcircles.cpp` — pairwise-repulsion relaxation (`iterate_layout`,
  `do_repulsion`, `ordinate`, `wrapOrdinate`, `almostZero`, `gtZero`),
  modelled over `ℝ` (C doubles are idealised as real numbers);
* `src/select_non_overlapping.cpp` — the non-overlapping subset selector,
  modelled over `ℚ` (it uses only ring operations and comparisons, so the
  model is fully executable and decidable);
* `src/pads_circle_pack.cpp` — the Collins–Stephenson tangency packer
  (`acxyz`, `flower`, the radius iteration, `place`, `CirclePack`),
  modelled over `ℝ` and `ℂ`;
* `src/pmenzel_circle_pack.cpp` — the progressive front-insertion layouter,
  whose pointer-linked node ring is modelled as an index-based arena.

Unbounded source loops (the `while` of `wrapOrdinate`, the radius iteration
of `CirclePack`, the insertion loop of `place_circles`, the selector's
`while (ndone < N)`) are modelled with explicit fuel; where the source loop
is proved to terminate, the model is run with provably sufficient fuel.
Theorems are stated against these definitions and proved below them.
-/

open Classical

/- ================================================================
   Shared utilities from packcircles.cpp

   bool almostZero(double x) { static double TOL = 0.00001; return std::abs(x) < TOL; }
   bool gtZero(double x) { return !almostZero(x) && (x > 0.0); }
   ================================================================ -/

/-- `TOL` from `almostZero` in packcircles.cpp. -/
def TOL : ℝ := 0.00001

/-- `almostZero` from packcircles.cpp: `std::abs(x) < TOL`. -/
def almostZero (x : ℝ) : Prop := |x| < TOL

/-- `gtZero` from packcircles.cpp: `!almostZero(x) && (x > 0.0)`. -/
def gtZero (x : ℝ) : Prop := ¬ almostZero x ∧ 0 < x

theorem gtZero_iff (x : ℝ) : gtZero x ↔ TOL ≤ x := by
  unfold gtZero almostZero
  constructor
  · rintro ⟨h1, h2⟩
    rwa [not_lt, abs_of_pos h2] at h1
  · intro h
    have ht : (0:ℝ) < TOL := by norm_num [TOL]
    exact ⟨by rw [not_lt, abs_of_pos (lt_of_lt_of_le ht h)]; exact h, lt_of_lt_of_le ht h⟩

/-- Row-major list of index pairs (i, j) with i < j < rows, in the order the
nested `for (i) for (j = i+1)` loops of the source visit them. -/
def pairsUpTo (rows : ℕ) : List (ℕ × ℕ) :=
  (List.range rows).flatMap fun i =>
    ((List.range rows).filter fun j => decide (i < j)).map fun j => (i, j)

theorem mem_pairsUpTo {rows : ℕ} {p : ℕ × ℕ} :
    p ∈ pairsUpTo rows ↔ p.1 < p.2 ∧ p.2 < rows := by
  obtain ⟨a, b⟩ := p
  simp only [pairsUpTo, List.mem_flatMap, List.mem_map, List.mem_filter,
    List.mem_range, decide_eq_true_eq]
  constructor
  · rintro ⟨i, hi, j, ⟨hj, hij⟩, h⟩
    injection h with h1 h2
    subst h1; subst h2
    exact ⟨hij, hj⟩
  · rintro ⟨hab, hb⟩
    exact ⟨a, lt_trans hab hb, b, ⟨hb, hab⟩, rfl⟩

/-- A list-fold invariant helper used throughout. -/
theorem foldl_invariant {α β : Type} (P : β → Prop) (f : β → α → β) (l : List α)
    (b : β) (hb : P b) (hstep : ∀ b a, a ∈ l → P b → P (f b a)) : P (l.foldl f b) := by
  induction l generalizing b with
  | nil => exact hb
  | cons x xs ih =>
      exact ih (f b x) (hstep b x (List.mem_cons_self x xs) hb)
        (fun b' a ha => hstep b' a (List.mem_cons_of_mem x ha))

/- ================================================================
   packcircles.cpp : ordinate adjustment (clamp / toroidal wrap)

   double wrapOrdinate(double x, double lo, double hi) {
     double w = hi - lo;
     while (x < lo) x += w;
     while (x >= hi) x -= w;
     return x;
   }

   The two `while` loops are modelled twice: `wrapUp`/`wrapDown` are total
   functions defined by well-founded recursion (they agree with the source
   whenever the source loop terminates; the extra `0 < w` test in the
   recursion guard makes them return their argument in exactly the cases
   where the source loop never exits); `wrapUpSteps`/`wrapDownSteps` is a
   fuel-indexed small-step rendition used to state and prove the
   termination/divergence claim about the source loop itself.
   ================================================================ -/

/-- `while (x < lo) x += w`, as a total function (returns `x` where the
source loop would run forever, i.e. when `w ≤ 0`). -/
noncomputable def wrapUp (lo w : ℝ) (x : ℝ) : ℝ :=
  if h : x < lo ∧ 0 < w then wrapUp lo w (x + w) else x
termination_by (⌈(lo - x) / w⌉).toNat
decreasing_by
  have hx := h.1
  have hw := h.2
  have hpos : (0:ℝ) < (lo - x) / w := div_pos (by linarith) hw
  have hstep : (lo - (x + w)) / w = (lo - x) / w - 1 := by
    field_simp
    ring
  have hceil : ⌈(lo - (x + w)) / w⌉ = ⌈(lo - x) / w⌉ - 1 := by
    rw [hstep, Int.ceil_sub_one]
  have hge : (1:ℤ) ≤ ⌈(lo - x) / w⌉ := by
    have := Int.ceil_pos.mpr hpos
    omega
  rw [hceil]
  omega

/-- `while (x >= hi) x -= w`, as a total function (returns `x` where the
source loop would run forever, i.e. when `w ≤ 0`). -/
noncomputable def wrapDown (hi w : ℝ) (x : ℝ) : ℝ :=
  if h : hi ≤ x ∧ 0 < w then wrapDown hi w (x - w) else x
termination_by (⌈(x - hi) / w⌉ + 1).toNat
decreasing_by
  have hx := h.1
  have hw := h.2
  have hnn : (0:ℝ) ≤ (x - hi) / w := div_nonneg (by linarith) (le_of_lt hw)
  have hstep : (x - w - hi) / w = (x - hi) / w - 1 := by
    field_simp
    ring
  have hceil : ⌈(x - w - hi) / w⌉ = ⌈(x - hi) / w⌉ - 1 := by
    rw [hstep, Int.ceil_sub_one]
  have hge : (0:ℤ) ≤ ⌈(x - hi) / w⌉ := Int.ceil_nonneg hnn
  rw [hceil]
  omega

/-- `wrapOrdinate` from packcircles.cpp: map an ordinate to `[lo, hi)`
toroidally. -/
noncomputable def wrapOrdinate (x lo hi : ℝ) : ℝ :=
  wrapDown hi (hi - lo) (wrapUp lo (hi - lo) x)

/-- `ordinate` from packcircles.cpp: wrap if `wrap`, else clamp via
`std::max(lo, std::min(hi, x))`. -/
noncomputable def ordinate (x lo hi : ℝ) (wrap : Bool) : ℝ :=
  if wrap then wrapOrdinate x lo hi else max lo (min hi x)

theorem wrapUp_ge (lo w x : ℝ) (hw : 0 < w) : lo ≤ wrapUp lo w x := by
  induction x using wrapUp.induct lo w with
  | case1 x h ih => rw [wrapUp, dif_pos h]; exact ih
  | case2 x h =>
      rw [wrapUp, dif_neg h]
      by_contra hlt
      exact h ⟨lt_of_not_le (fun hc => hlt hc), hw⟩

theorem wrapUp_of_ge (lo w x : ℝ) (h : lo ≤ x) : wrapUp lo w x = x := by
  rw [wrapUp, dif_neg]
  rintro ⟨h1, _⟩
  exact absurd h (not_le.mpr h1)

theorem wrapDown_lt (hi w x : ℝ) (hw : 0 < w) : wrapDown hi w x < hi := by
  induction x using wrapDown.induct hi w with
  | case1 x h ih => rw [wrapDown, dif_pos h]; exact ih
  | case2 x h =>
      rw [wrapDown, dif_neg h]
      by_contra hlt
      exact h ⟨le_of_not_lt (fun hc => hlt hc), hw⟩

theorem wrapDown_ge (hi w x : ℝ) (hlo : hi - w ≤ x) : hi - w ≤ wrapDown hi w x := by
  induction x using wrapDown.induct hi w with
  | case1 x h ih =>
      rw [wrapDown, dif_pos h]
      exact ih (by linarith [h.1, h.2])
  | case2 x h => rw [wrapDown, dif_neg h]; exact hlo

/-- For well-ordered bounds the wrapped ordinate lands in `[lo, hi)`. -/
theorem wrapOrdinate_mem (x lo hi : ℝ) (h : lo < hi) :
    lo ≤ wrapOrdinate x lo hi ∧ wrapOrdinate x lo hi < hi := by
  have hw : 0 < hi - lo := by linarith
  have h1 : lo ≤ wrapUp lo (hi - lo) x := wrapUp_ge lo (hi - lo) x hw
  constructor
  · have := wrapDown_ge hi (hi - lo) (wrapUp lo (hi - lo) x) (by linarith)
    unfold wrapOrdinate
    linarith
  · exact wrapDown_lt hi (hi - lo) _ hw

/-- For well-ordered bounds `ordinate` lands in `[lo, hi)` (wrap) or
`[lo, hi]` (clamp). -/
theorem ordinate_mem (x lo hi : ℝ) (wrap : Bool)
    (h : if wrap then lo < hi else lo ≤ hi) :
    lo ≤ ordinate x lo hi wrap ∧
      (if wrap then ordinate x lo hi wrap < hi else ordinate x lo hi wrap ≤ hi) := by
  cases wrap with
  | true =>
      simp only [ordinate, if_true]
      simpa using wrapOrdinate_mem x lo hi (by simpa using h)
  | false =>
      simp only [ordinate, if_false, Bool.false_eq_true]
      refine ⟨le_max_left _ _, ?_⟩
      simp only [max_le_iff, min_le_iff]
      exact ⟨by simpa using h, Or.inl le_rfl⟩

/- Fuel-indexed small-step model of the two wrap loops, for the
termination/divergence analysis of the source `while` loops themselves.
`none` means the loop is still running after the given number of steps. -/

/-- `while (x < lo) x += w` run for at most `n` steps. -/
noncomputable def wrapUpSteps (lo w : ℝ) : ℕ → ℝ → Option ℝ
  | 0, x => if x < lo then none else some x
  | n + 1, x => if x < lo then wrapUpSteps lo w n (x + w) else some x

/-- `while (x >= hi) x -= w` run for at most `n` steps. -/
noncomputable def wrapDownSteps (hi w : ℝ) : ℕ → ℝ → Option ℝ
  | 0, x => if hi ≤ x then none else some x
  | n + 1, x => if hi ≤ x then wrapDownSteps hi w n (x - w) else some x

/-- The body of `wrapOrdinate` with both loops bounded by `n` steps. -/
noncomputable def wrapOrdinateSteps (x lo hi : ℝ) (n : ℕ) : Option ℝ :=
  (wrapUpSteps lo (hi - lo) n x).bind (wrapDownSteps hi (hi - lo) n)

theorem wrapUpSteps_mono (lo w : ℝ) :
    ∀ n x y, wrapUpSteps lo w n x = some y → ∀ m, n ≤ m → wrapUpSteps lo w m x = some y := by
  intro n
  induction n with
  | zero =>
      intro x y h m _
      rw [wrapUpSteps] at h
      split at h
      · exact absurd h (by simp)
      · cases m with
        | zero => rw [wrapUpSteps]; rwa [if_neg (by assumption)]
        | succ m => rw [wrapUpSteps]; rwa [if_neg (by assumption)]
  | succ n ih =>
      intro x y h m hm
      rw [wrapUpSteps] at h
      split at h
      · obtain ⟨m', rfl⟩ : ∃ m', m = m' + 1 := ⟨m - 1, by omega⟩
        rw [wrapUpSteps, if_pos (by assumption)]
        exact ih _ _ h m' (by omega)
      · cases m with
        | zero => rw [wrapUpSteps]; rwa [if_neg (by assumption)]
        | succ m => rw [wrapUpSteps]; rwa [if_neg (by assumption)]

theorem wrapDownSteps_mono (hi w : ℝ) :
    ∀ n x y, wrapDownSteps hi w n x = some y → ∀ m, n ≤ m → wrapDownSteps hi w m x = some y := by
  intro n
  induction n with
  | zero =>
      intro x y h m _
      rw [wrapDownSteps] at h
      split at h
      · exact absurd h (by simp)
      · cases m with
        | zero => rw [wrapDownSteps]; rwa [if_neg (by assumption)]
        | succ m => rw [wrapDownSteps]; rwa [if_neg (by assumption)]
  | succ n ih =>
      intro x y h m hm
      rw [wrapDownSteps] at h
      split at h
      · obtain ⟨m', rfl⟩ : ∃ m', m = m' + 1 := ⟨m - 1, by omega⟩
        rw [wrapDownSteps, if_pos (by assumption)]
        exact ih _ _ h m' (by omega)
      · cases m with
        | zero => rw [wrapDownSteps]; rwa [if_neg (by assumption)]
        | succ m => rw [wrapDownSteps]; rwa [if_neg (by assumption)]

theorem wrapUpSteps_exists (lo w : ℝ) (hw : 0 < w) (x : ℝ) :
    ∃ n, wrapUpSteps lo w n x = some (wrapUp lo w x) := by
  induction x using wrapUp.induct lo w with
  | case1 x h ih =>
      obtain ⟨n, hn⟩ := ih
      refine ⟨n + 1, ?_⟩
      rw [wrapUpSteps, if_pos h.1, hn]
      conv_rhs => rw [wrapUp]
      rw [dif_pos h]
  | case2 x h =>
      refine ⟨0, ?_⟩
      have hx : ¬ x < lo := fun hc => h ⟨hc, hw⟩
      rw [wrapUpSteps, if_neg hx, wrapUp, dif_neg h]

theorem wrapDownSteps_exists (hi w : ℝ) (hw : 0 < w) (x : ℝ) :
    ∃ n, wrapDownSteps hi w n x = some (wrapDown hi w x) := by
  induction x using wrapDown.induct hi w with
  | case1 x h ih =>
      obtain ⟨n, hn⟩ := ih
      refine ⟨n + 1, ?_⟩
      rw [wrapDownSteps, if_pos h.1, hn]
      conv_rhs => rw [wrapDown]
      rw [dif_pos h]
  | case2 x h =>
      refine ⟨0, ?_⟩
      have hx : ¬ hi ≤ x := fun hc => h ⟨hc, hw⟩
      rw [wrapDownSteps, if_neg hx, wrapDown, dif_neg h]

theorem wrapUpSteps_diverge (lo w : ℝ) (hw : w ≤ 0) :
    ∀ n x, x < lo → wrapUpSteps lo w n x = none := by
  intro n
  induction n with
  | zero => intro x hx; rw [wrapUpSteps, if_pos hx]
  | succ n ih =>
      intro x hx
      rw [wrapUpSteps, if_pos hx]
      exact ih (x + w) (by linarith)

theorem wrapDownSteps_diverge (hi w : ℝ) (hw : w ≤ 0) :
    ∀ n x, hi ≤ x → wrapDownSteps hi w n x = none := by
  intro n
  induction n with
  | zero => intro x hx; rw [wrapDownSteps, if_pos hx]
  | succ n ih =>
      intro x hx
      rw [wrapDownSteps, if_pos hx]
      exact ih (x - w) (by linarith)

/- ================================================================
   packcircles.cpp : do_repulsion / iterate_layout

   The N×3 matrix `xyr` is modelled as a list of circles; `weights` as a
   list of reals. Matrix reads out of range yield a zero default (the
   source never reads out of range: indices come from the loops).
   ================================================================ -/

/-- One row of the `xyr` matrix: centre x, centre y, radius. -/
structure Circ where
  x : ℝ
  y : ℝ
  radius : ℝ

/-- Read row `i` of the matrix (zero row if out of range). -/
def getC (xyr : List Circ) (i : ℕ) : Circ := xyr.getD i ⟨0, 0, 0⟩

/-- `do_repulsion` from packcircles.cpp. Reads rows `c0`, `c1`, and if they
overlap beyond tolerance pushes them apart, clamping/wrapping each new
ordinate; returns the updated matrix and whether a move happened (the C
`int` return, 1 = moved, 0 = not). The source mutates row `c1` first, then
row `c0`, reading each row's old coordinates; with `c0 ≠ c1` (always true
for the caller's `i < j`) that equals this simultaneous form. -/
noncomputable def do_repulsion (xyr : List Circ) (weights : List ℝ) (c0 c1 : ℕ)
    (xmin xmax ymin ymax : ℝ) (wrap : Bool) : List Circ × Bool :=
  if almostZero (weights.getD c0 0) ∧ almostZero (weights.getD c1 0) then (xyr, false)
  else
    let p0 := getC xyr c0
    let p1 := getC xyr c1
    let dx0 := p1.x - p0.x
    let dy := p1.y - p0.y
    let d := Real.sqrt (dx0 * dx0 + dy * dy)
    let r := p1.radius + p0.radius
    if gtZero (r - d) then
      -- if the centres are (almost) coincident, push along the x-axis:
      -- p = 1.0; dx = r - d;  else  p = (r - d) / d
      let p := if almostZero d then 1 else (r - d) / d
      let dx := if almostZero d then r - d else dx0
      let w0 := weights.getD c0 0 * p1.radius / r
      let w1 := weights.getD c1 0 * p0.radius / r
      let xyr1 := xyr.set c1
        ⟨ordinate (p1.x + p * dx * w1) xmin xmax wrap,
         ordinate (p1.y + p * dy * w1) ymin ymax wrap, p1.radius⟩
      let xyr2 := xyr1.set c0
        ⟨ordinate (p0.x - p * dx * w0) xmin xmax wrap,
         ordinate (p0.y - p * dy * w0) ymin ymax wrap, p0.radius⟩
      (xyr2, true)
    else (xyr, false)

/-- One pass of `iterate_layout`'s nested pair loops: visit every pair
(i, j), i < j, in row-major order, threading the matrix and OR-ing the
moved flag. -/
noncomputable def one_pass (weights : List ℝ) (xmin xmax ymin ymax : ℝ) (wrap : Bool)
    (xyr : List Circ) : List Circ × Bool :=
  (pairsUpTo xyr.length).foldl
    (fun acc ij =>
      let res := do_repulsion acc.1 weights ij.1 ij.2 xmin xmax ymin ymax wrap
      (res.1, acc.2 || res.2))
    (xyr, false)

/-- `iterate_layout` from packcircles.cpp: run passes until a pass moves
nothing or `maxiter` passes have moved; returns the final matrix and the
value of the C loop variable `iter` at exit (the number of passes that
caused movement). -/
noncomputable def iterate_layout (weights : List ℝ) (xmin xmax ymin ymax : ℝ) (wrap : Bool) :
    ℕ → List Circ → List Circ × ℕ
  | 0, st => (st, 0)
  | maxiter + 1, st =>
      let pm := one_pass weights xmin xmax ymin ymax wrap st
      if pm.2 then
        let next := iterate_layout weights xmin xmax ymin ymax wrap maxiter pm.1
        (next.1, next.2 + 1)
      else (pm.1, 0)

/-- The matrix after `k` full passes. -/
noncomputable def passState (weights : List ℝ) (xmin xmax ymin ymax : ℝ) (wrap : Bool)
    (st : List Circ) (k : ℕ) : List Circ :=
  (fun s => (one_pass weights xmin xmax ymin ymax wrap s).1)^[k] st

/-- Whether the (k+1)-th pass (counting from k = 0) moves anything. -/
noncomputable def movedAt (weights : List ℝ) (xmin xmax ymin ymax : ℝ) (wrap : Bool)
    (st : List Circ) (k : ℕ) : Bool :=
  (one_pass weights xmin xmax ymin ymax wrap
    (passState weights xmin xmax ymin ymax wrap st k)).2

theorem getC_set_self (l : List Circ) (j : ℕ) (v : Circ) (h : j < l.length) :
    getC (l.set j v) j = v := by
  simp [getC, List.getD, List.getElem?_set_eq_of_lt _ h]

theorem getC_set_ne (l : List Circ) (i j : ℕ) (v : Circ) (h : j ≠ i) :
    getC (l.set j v) i = getC l i := by
  simp [getC, List.getD, List.getElem?_set_ne h]

/- ================================================================
   C9 — termination behaviour of the wrapOrdinate loops
   ================================================================ -/

theorem wrapUpSteps_of_ge (lo w x : ℝ) (h : ¬ x < lo) :
    ∀ n, wrapUpSteps lo w n x = some x := by
  intro n
  cases n with
  | zero => rw [wrapUpSteps, if_neg h]
  | succ n => rw [wrapUpSteps, if_neg h]

/-- C9: `wrapOrdinate`'s loops terminate with a result in `[lo, hi)`
whenever `lo < hi`; when `hi ≤ lo` they never return (whatever `x` is —
with an empty target interval every ordinate is out of range), so `lo < hi`
is a hidden precondition of every wrapping call. -/
theorem wrapOrdinate_loop_termination (x lo hi : ℝ) :
    (lo < hi → ∃ n y, wrapOrdinateSteps x lo hi n = some y ∧ lo ≤ y ∧ y < hi) ∧
    (hi ≤ lo → ∀ n, wrapOrdinateSteps x lo hi n = none) := by
  constructor
  · intro h
    have hw : 0 < hi - lo := by linarith
    obtain ⟨n1, h1⟩ := wrapUpSteps_exists lo (hi - lo) hw x
    obtain ⟨n2, h2⟩ := wrapDownSteps_exists hi (hi - lo) hw (wrapUp lo (hi - lo) x)
    refine ⟨max n1 n2, wrapDown hi (hi - lo) (wrapUp lo (hi - lo) x), ?_, ?_, ?_⟩
    · unfold wrapOrdinateSteps
      rw [wrapUpSteps_mono lo (hi - lo) n1 x _ h1 (max n1 n2) (le_max_left _ _)]
      exact wrapDownSteps_mono hi (hi - lo) n2 _ _ h2 (max n1 n2) (le_max_right _ _)
    · have := (wrapOrdinate_mem x lo hi h).1
      unfold wrapOrdinate at this
      exact this
    · have := (wrapOrdinate_mem x lo hi h).2
      unfold wrapOrdinate at this
      exact this
  · intro h n
    have hw : hi - lo ≤ 0 := by linarith
    by_cases hx : x < lo
    · unfold wrapOrdinateSteps
      rw [wrapUpSteps_diverge lo (hi - lo) hw n x hx]
      rfl
    · unfold wrapOrdinateSteps
      rw [wrapUpSteps_of_ge lo (hi - lo) x hx n]
      have hge : hi ≤ x := le_trans h (not_lt.mp hx)
      show (some x).bind (wrapDownSteps hi (hi - lo) n) = none
      rw [Option.some_bind]
      exact wrapDownSteps_diverge hi (hi - lo) hw n x hge

/- ================================================================
   C2 — iterate_layout's iteration count
   ================================================================ -/

theorem movedAt_zero (weights : List ℝ) (xmin xmax ymin ymax : ℝ) (wrap : Bool)
    (st : List Circ) :
    movedAt weights xmin xmax ymin ymax wrap st 0 =
      (one_pass weights xmin xmax ymin ymax wrap st).2 := rfl

theorem movedAt_succ (weights : List ℝ) (xmin xmax ymin ymax : ℝ) (wrap : Bool)
    (st : List Circ) (k : ℕ) :
    movedAt weights xmin xmax ymin ymax wrap st (k + 1) =
      movedAt weights xmin xmax ymin ymax wrap
        (one_pass weights xmin xmax ymin ymax wrap st).1 k := by
  unfold movedAt passState
  rw [Function.iterate_succ_apply]

/-- C2: `iterate_layout` stops early after a pass with no movement,
otherwise stops at `maxiter`; the returned count is the number of passes
that caused movement (every pass before it moved, and if the count is
below `maxiter` the following pass moved nothing), and it equals
`maxiter` exactly when movement persisted through every pass. -/
theorem iterate_layout_count (weights : List ℝ) (xmin xmax ymin ymax : ℝ)
    (wrap : Bool) (maxiter : ℕ) (st : List Circ) :
    (iterate_layout weights xmin xmax ymin ymax wrap maxiter st).2 ≤ maxiter ∧
    (∀ k, k < (iterate_layout weights xmin xmax ymin ymax wrap maxiter st).2 →
      movedAt weights xmin xmax ymin ymax wrap st k = true) ∧
    ((iterate_layout weights xmin xmax ymin ymax wrap maxiter st).2 < maxiter →
      movedAt weights xmin xmax ymin ymax wrap st
        (iterate_layout weights xmin xmax ymin ymax wrap maxiter st).2 = false) ∧
    ((iterate_layout weights xmin xmax ymin ymax wrap maxiter st).2 = maxiter ↔
      ∀ k, k < maxiter → movedAt weights xmin xmax ymin ymax wrap st k = true) := by
  induction maxiter generalizing st with
  | zero =>
      refine ⟨le_refl _, ?_, ?_, ?_⟩
      · intro k hk
        simp only [iterate_layout] at hk
        omega
      · intro h
        simp only [iterate_layout] at h
        omega
      · simp [iterate_layout]
  | succ f ih =>
      by_cases hm : (one_pass weights xmin xmax ymin ymax wrap st).2 = true
      · have hred : iterate_layout weights xmin xmax ymin ymax wrap (f + 1) st =
            ((iterate_layout weights xmin xmax ymin ymax wrap f
                (one_pass weights xmin xmax ymin ymax wrap st).1).1,
             (iterate_layout weights xmin xmax ymin ymax wrap f
                (one_pass weights xmin xmax ymin ymax wrap st).1).2 + 1) := by
          rw [iterate_layout]
          simp only [hm, if_true]
        obtain ⟨ih1, ih2, ih3, ih4⟩ := ih (one_pass weights xmin xmax ymin ymax wrap st).1
        rw [hred]
        refine ⟨by simpa using ih1, ?_, ?_, ?_⟩
        · intro k hk
          cases k with
          | zero => exact hm
          | succ k =>
              rw [movedAt_succ]
              exact ih2 k (by simpa using hk)
        · intro h
          rw [movedAt_succ]
          exact ih3 (by simpa using h)
        · simp only [Nat.add_right_cancel_iff]
          rw [ih4]
          constructor
          · intro hall k hk
            cases k with
            | zero => exact hm
            | succ k => rw [movedAt_succ]; exact hall k (by omega)
          · intro hall k hk
            have := hall (k + 1) (by omega)
            rwa [movedAt_succ] at this
      · have hmf : (one_pass weights xmin xmax ymin ymax wrap st).2 = false := by
          simpa using hm
        have hred : iterate_layout weights xmin xmax ymin ymax wrap (f + 1) st =
            ((one_pass weights xmin xmax ymin ymax wrap st).1, 0) := by
          rw [iterate_layout]
          simp only [hmf, Bool.false_eq_true, if_false]
        rw [hred]
        refine ⟨by omega, by intro k hk; omega, ?_, ?_⟩
        · intro _
          rw [movedAt_zero]
          exact hmf
        · constructor
          · intro h; omega
          · intro hall
            have := hall 0 (by omega)
            rw [movedAt_zero] at this
            rw [this] at hmf
            cases hmf

/- ================================================================
   C3 — bounds containment of relaxed circles
   ================================================================ -/

/-- Both ordinates lie inside the bounds box: `[lo, hi)` per axis when
wrapping, `[lo, hi]` when clamping. -/
def inBox (wrap : Bool) (xmin xmax ymin ymax : ℝ) (c : Circ) : Prop :=
  (xmin ≤ c.x ∧ (if wrap then c.x < xmax else c.x ≤ xmax)) ∧
  (ymin ≤ c.y ∧ (if wrap then c.y < ymax else c.y ≤ ymax))

/-- Row `i` of `st` is either the corresponding row of `st0` unchanged, or
lies inside the bounds box. -/
def framed (wrap : Bool) (xmin xmax ymin ymax : ℝ) (st0 st : List Circ) : Prop :=
  ∀ i, getC st i = getC st0 i ∨ inBox wrap xmin xmax ymin ymax (getC st i)

theorem framed_refl (wrap : Bool) (xmin xmax ymin ymax : ℝ) (st : List Circ) :
    framed wrap xmin xmax ymin ymax st st := fun _ => Or.inl rfl

theorem framed_trans (wrap : Bool) (xmin xmax ymin ymax : ℝ) {st0 st1 st2 : List Circ}
    (h1 : framed wrap xmin xmax ymin ymax st0 st1)
    (h2 : framed wrap xmin xmax ymin ymax st1 st2) :
    framed wrap xmin xmax ymin ymax st0 st2 := by
  intro i
  rcases h2 i with h | h
  · rw [h]; exact h1 i
  · exact Or.inr h

theorem ordinate_mem_lo (x lo hi : ℝ) (wrap : Bool)
    (h : if wrap then lo < hi else lo ≤ hi) : lo ≤ ordinate x lo hi wrap :=
  (ordinate_mem x lo hi wrap h).1

theorem do_repulsion_framed (xyr : List Circ) (weights : List ℝ) (c0 c1 : ℕ)
    (xmin xmax ymin ymax : ℝ) (wrap : Bool)
    (hx : if wrap then xmin < xmax else xmin ≤ xmax)
    (hy : if wrap then ymin < ymax else ymin ≤ ymax) :
    framed wrap xmin xmax ymin ymax xyr
      (do_repulsion xyr weights c0 c1 xmin xmax ymin ymax wrap).1 := by
  intro i
  unfold do_repulsion
  split
  · exact Or.inl rfl
  · dsimp only
    split
    · -- the moved branch: rows c1 then c0 are rewritten through `ordinate`
      by_cases h0 : i = c0
      · subst h0
        by_cases hlen : i < xyr.length
        · rw [getC_set_self _ _ _ (by simpa using hlen)]
          refine Or.inr ⟨⟨?_, ?_⟩, ⟨?_, ?_⟩⟩
          · exact ordinate_mem_lo _ _ _ _ hx
          · exact (ordinate_mem _ _ _ _ hx).2
          · exact ordinate_mem_lo _ _ _ _ hy
          · exact (ordinate_mem _ _ _ _ hy).2
        · rw [List.set_eq_of_length_le (by simpa using le_of_not_lt hlen)]
          by_cases h1 : i = c1
          · subst h1
            rw [List.set_eq_of_length_le (le_of_not_lt hlen)]
            exact Or.inl rfl
          · rw [getC_set_ne _ _ _ _ (fun hc => h1 hc.symm)]
            exact Or.inl rfl
      · rw [getC_set_ne _ _ _ _ (fun hc => h0 hc.symm)]
        by_cases h1 : i = c1
        · subst h1
          by_cases hlen : i < xyr.length
          · rw [getC_set_self _ _ _ hlen]
            refine Or.inr ⟨⟨?_, ?_⟩, ⟨?_, ?_⟩⟩
            · exact ordinate_mem_lo _ _ _ _ hx
            · exact (ordinate_mem _ _ _ _ hx).2
            · exact ordinate_mem_lo _ _ _ _ hy
            · exact (ordinate_mem _ _ _ _ hy).2
          · rw [List.set_eq_of_length_le (le_of_not_lt hlen)]
            exact Or.inl rfl
        · rw [getC_set_ne _ _ _ _ (fun hc => h1 hc.symm)]
          exact Or.inl rfl
    · exact Or.inl rfl

theorem one_pass_framed (weights : List ℝ) (xmin xmax ymin ymax : ℝ) (wrap : Bool)
    (st : List Circ)
    (hx : if wrap then xmin < xmax else xmin ≤ xmax)
    (hy : if wrap then ymin < ymax else ymin ≤ ymax) :
    framed wrap xmin xmax ymin ymax st (one_pass weights xmin xmax ymin ymax wrap st).1 := by
  unfold one_pass
  have := foldl_invariant
    (fun acc : List Circ × Bool => framed wrap xmin xmax ymin ymax st acc.1)
    (fun acc ij =>
      let res := do_repulsion acc.1 weights ij.1 ij.2 xmin xmax ymin ymax wrap
      (res.1, acc.2 || res.2))
    (pairsUpTo st.length) (st, false) (framed_refl _ _ _ _ _ _)
    (fun b a _ hb => framed_trans _ _ _ _ _ hb
      (do_repulsion_framed b.1 weights a.1 a.2 xmin xmax ymin ymax wrap hx hy))
  exact this

/-- C3 (amended): with ordered bounds (strictly ordered when wrapping),
every output row of `iterate_layout` either equals its input row unchanged
— a circle that never took part in a repulsion event keeps its initial,
possibly out-of-bounds, ordinates — or has both ordinates inside the box:
in `[min, max]` per axis when clamping, in `[min, max)` when wrapping. -/
theorem iterate_layout_bounds (weights : List ℝ) (xmin xmax ymin ymax : ℝ)
    (wrap : Bool) (maxiter : ℕ) (st : List Circ)
    (hx : if wrap then xmin < xmax else xmin ≤ xmax)
    (hy : if wrap then ymin < ymax else ymin ≤ ymax) :
    ∀ i, getC (iterate_layout weights xmin xmax ymin ymax wrap maxiter st).1 i = getC st i ∨
      inBox wrap xmin xmax ymin ymax
        (getC (iterate_layout weights xmin xmax ymin ymax wrap maxiter st).1 i) := by
  have main : framed wrap xmin xmax ymin ymax st
      (iterate_layout weights xmin xmax ymin ymax wrap maxiter st).1 := by
    induction maxiter generalizing st with
    | zero => exact framed_refl _ _ _ _ _ _
    | succ f ih =>
        by_cases hm : (one_pass weights xmin xmax ymin ymax wrap st).2 = true
        · have hred : (iterate_layout weights xmin xmax ymin ymax wrap (f + 1) st).1 =
              (iterate_layout weights xmin xmax ymin ymax wrap f
                (one_pass weights xmin xmax ymin ymax wrap st).1).1 := by
            rw [iterate_layout]
            simp only [hm, if_true]
          rw [hred]
          exact framed_trans _ _ _ _ _
            (one_pass_framed weights xmin xmax ymin ymax wrap st hx hy)
            (ih (one_pass weights xmin xmax ymin ymax wrap st).1)
        · have hmf : (one_pass weights xmin xmax ymin ymax wrap st).2 = false := by
            simpa using hm
          have hred : (iterate_layout weights xmin xmax ymin ymax wrap (f + 1) st).1 =
              (one_pass weights xmin xmax ymin ymax wrap st).1 := by
            rw [iterate_layout]
            simp only [hmf, Bool.false_eq_true, if_false]
          rw [hred]
          exact one_pass_framed weights xmin xmax ymin ymax wrap st hx hy
  exact main

/-- C3 witness: a concrete clamped relaxation to which the amended theorem
applies (bounds 0 ≤ 1 on both axes, wrap off). -/
theorem iterate_layout_bounds_witness :
    getC (iterate_layout [1] 0 1 0 1 false 1 [⟨100, 0, 1⟩]).1 0 = getC [⟨100, 0, 1⟩] 0 ∨
      inBox false 0 1 0 1 (getC (iterate_layout [1] 0 1 0 1 false 1 [⟨100, 0, 1⟩]).1 0) :=
  iterate_layout_bounds [1] 0 1 0 1 false 1 [⟨100, 0, 1⟩]
    (by norm_num) (by norm_num) 0

/-- C3 counterexample to the claim as stated: a single circle starting at
x = 100 with bounds [0, 1]², weights [1], wrap off, never takes part in a
repulsion event (there is no pair), so `iterate_layout` leaves its x
ordinate at 100, outside [xmin, xmax]. -/
theorem iterate_layout_bounds_counterexample :
    (getC (iterate_layout [1] 0 1 0 1 false 1 [⟨100, 0, 1⟩]).1 0).x = 100 ∧
    ¬ ((getC (iterate_layout [1] 0 1 0 1 false 1 [⟨100, 0, 1⟩]).1 0).x ≤ 1) := by
  have hpairs : pairsUpTo 1 = [] := rfl
  have hpass : one_pass [1] 0 1 0 1 false [⟨100, 0, 1⟩] = ([⟨100, 0, 1⟩], false) := by
    unfold one_pass
    rw [show ([(⟨100, 0, 1⟩ : Circ)].length) = 1 from rfl, hpairs]
    rfl
  have hiter : iterate_layout [1] 0 1 0 1 false 1 [⟨100, 0, 1⟩] = ([⟨100, 0, 1⟩], 0) := by
    rw [iterate_layout, hpass]
    simp only [Bool.false_eq_true, if_false]
  rw [hiter]
  norm_num [getC]

/- ================================================================
   C6 — coincident-centre fallback in do_repulsion
   ================================================================ -/

/-- C6 (amended): in a repulsion event whose overlap exceeds tolerance and
whose centre distance d is almost zero, the pair is treated as coincident:
the push amount p is 1 and the push runs along the x-axis with the
synthetic dx set to r − d, the overlap amount (this equals r, the radius
sum, only when d is exactly zero). -/
theorem do_repulsion_coincident (xyr : List Circ) (weights : List ℝ) (c0 c1 : ℕ)
    (xmin xmax ymin ymax : ℝ) (wrap : Bool)
    (hw : ¬ (almostZero (weights.getD c0 0) ∧ almostZero (weights.getD c1 0)))
    (hover : gtZero ((getC xyr c1).radius + (getC xyr c0).radius -
      Real.sqrt (((getC xyr c1).x - (getC xyr c0).x) * ((getC xyr c1).x - (getC xyr c0).x) +
        ((getC xyr c1).y - (getC xyr c0).y) * ((getC xyr c1).y - (getC xyr c0).y))))
    (hd : almostZero (Real.sqrt
      (((getC xyr c1).x - (getC xyr c0).x) * ((getC xyr c1).x - (getC xyr c0).x) +
        ((getC xyr c1).y - (getC xyr c0).y) * ((getC xyr c1).y - (getC xyr c0).y)))) :
    do_repulsion xyr weights c0 c1 xmin xmax ymin ymax wrap =
      (let p0 := getC xyr c0
       let p1 := getC xyr c1
       let d := Real.sqrt ((p1.x - p0.x) * (p1.x - p0.x) + (p1.y - p0.y) * (p1.y - p0.y))
       let r := p1.radius + p0.radius
       let w0 := weights.getD c0 0 * p1.radius / r
       let w1 := weights.getD c1 0 * p0.radius / r
       ((xyr.set c1
          ⟨ordinate (p1.x + 1 * (r - d) * w1) xmin xmax wrap,
           ordinate (p1.y + 1 * (p1.y - p0.y) * w1) ymin ymax wrap, p1.radius⟩).set c0
          ⟨ordinate (p0.x - 1 * (r - d) * w0) xmin xmax wrap,
           ordinate (p0.y - 1 * (p1.y - p0.y) * w0) ymin ymax wrap, p0.radius⟩, true)) := by
  unfold do_repulsion
  rw [if_neg hw]
  dsimp only
  rw [if_pos hover, if_pos hd, if_pos hd]

/-- C6 witness: two unit circles with exactly coincident centres; the
amended theorem applies and the pair moves apart along the x-axis. -/
theorem do_repulsion_coincident_witness :
    ∃ out, do_repulsion [⟨0, 0, 1⟩, ⟨0, 0, 1⟩] [1, 1] 0 1 (-10) 10 (-10) 10 false =
      (out, true) := by
  have harg : (((getC [(⟨0, 0, 1⟩ : Circ), ⟨0, 0, 1⟩] 1).x - (getC [(⟨0, 0, 1⟩ : Circ), ⟨0, 0, 1⟩] 0).x) *
      ((getC [(⟨0, 0, 1⟩ : Circ), ⟨0, 0, 1⟩] 1).x - (getC [(⟨0, 0, 1⟩ : Circ), ⟨0, 0, 1⟩] 0).x) +
      ((getC [(⟨0, 0, 1⟩ : Circ), ⟨0, 0, 1⟩] 1).y - (getC [(⟨0, 0, 1⟩ : Circ), ⟨0, 0, 1⟩] 0).y) *
      ((getC [(⟨0, 0, 1⟩ : Circ), ⟨0, 0, 1⟩] 1).y - (getC [(⟨0, 0, 1⟩ : Circ), ⟨0, 0, 1⟩] 0).y)) = 0 := by
    norm_num [getC]
  have h := do_repulsion_coincident [⟨0, 0, 1⟩, ⟨0, 0, 1⟩] [1, 1] 0 1 (-10) 10 (-10) 10 false
    (by
      intro hc
      have := hc.1
      norm_num [almostZero, TOL] at this)
    (by
      rw [harg, Real.sqrt_zero]
      rw [gtZero_iff]
      norm_num [getC, TOL])
    (by
      rw [harg, Real.sqrt_zero]
      norm_num [almostZero, TOL])
  exact ⟨_, h⟩

/-- C6 counterexample to the claim as stated: centres at distance
d = 10⁻⁶ (nonzero but below the 10⁻⁵ tolerance), radii 1 and 1, weights 1.
The coincident branch fires with dx = r − d = 2 − 10⁻⁶, so circle 1 ends at
x = 10⁻⁶ + (2 − 10⁻⁶)/2 = 1 + 10⁻⁶/2; had the synthetic dx been r = 2 as
claimed, it would end at x = 10⁻⁶ + 2/2 = 1 + 10⁻⁶. -/
theorem do_repulsion_coincident_counterexample :
    (getC (do_repulsion [⟨0, 0, 1⟩, ⟨1/1000000, 0, 1⟩] [1, 1] 0 1 (-10) 10 (-10) 10 false).1 1).x
      = 1 + 1/2000000 ∧
    (1 + 1/2000000 : ℝ) ≠ 1/1000000 + 1 * 2 * (1 * 1 / 2) := by
  constructor
  · have harg : (((getC [(⟨0, 0, 1⟩ : Circ), ⟨1/1000000, 0, 1⟩] 1).x -
        (getC [(⟨0, 0, 1⟩ : Circ), ⟨1/1000000, 0, 1⟩] 0).x) *
        ((getC [(⟨0, 0, 1⟩ : Circ), ⟨1/1000000, 0, 1⟩] 1).x -
        (getC [(⟨0, 0, 1⟩ : Circ), ⟨1/1000000, 0, 1⟩] 0).x) +
        ((getC [(⟨0, 0, 1⟩ : Circ), ⟨1/1000000, 0, 1⟩] 1).y -
        (getC [(⟨0, 0, 1⟩ : Circ), ⟨1/1000000, 0, 1⟩] 0).y) *
        ((getC [(⟨0, 0, 1⟩ : Circ), ⟨1/1000000, 0, 1⟩] 1).y -
        (getC [(⟨0, 0, 1⟩ : Circ), ⟨1/1000000, 0, 1⟩] 0).y)) = (1/1000000 : ℝ)^2 := by
      norm_num [getC]
    have hsqrt : Real.sqrt ((1/1000000 : ℝ)^2) = 1/1000000 :=
      Real.sqrt_sq (by norm_num)
    have h := do_repulsion_coincident [⟨0, 0, 1⟩, ⟨1/1000000, 0, 1⟩] [1, 1] 0 1
      (-10) 10 (-10) 10 false
      (by
        intro hc
        have := hc.1
        norm_num [almostZero, TOL] at this)
      (by
        rw [harg, hsqrt, gtZero_iff]
        norm_num [getC, TOL])
      (by
        rw [harg, hsqrt]
        unfold almostZero TOL
        rw [abs_of_pos (by norm_num : (0:ℝ) < 1/1000000)]
        norm_num)
    rw [h]
    dsimp only
    rw [getC_set_ne _ _ _ _ (by norm_num)]
    rw [getC_set_self _ _ _ (by norm_num)]
    show ordinate _ _ _ false = _
    unfold ordinate
    rw [if_neg (by norm_num)]
    rw [harg, hsqrt]
    norm_num [getC, min_def, max_def]
  · norm_num

/- ================================================================
   select_non_overlapping.cpp — the non-overlapping subset selector

   Circles carry exact rational coordinates in the model (the selector
   uses only ring operations and comparisons, so every run is decidable).
   The R-side uniform random stream (`runif` backing `RandomInts`) is an
   explicit parameter `u : ℕ → ℚ` of draws in [0, 1);
   `nextInt(max) = (int)(u * (max + 1))` as in the source.
   ================================================================ -/

namespace SelectNO

/-- A circle of `select_non_overlapping.cpp` (x, y, radius). -/
structure SCircle where
  x : ℚ
  y : ℚ
  radius : ℚ

/-- Read circle `i` (zero circle if out of range; the source never reads
out of range). -/
def sget (cs : List SCircle) (i : ℕ) : SCircle := cs.getD i ⟨0, 0, 0⟩

/-- `Circle::intersects`: `dx*dx + dy*dy < rsum * rsum * tolerance`. -/
def sintersects (c other : SCircle) (tolerance : ℚ) : Bool :=
  decide ((c.x - other.x) * (c.x - other.x) + (c.y - other.y) * (c.y - other.y) <
    (c.radius + other.radius) * (c.radius + other.radius) * tolerance)

/-- The state constants of the source: `Selected = 1`, `Candidate = 0`,
`Rejected = -1`. -/
def Selected : ℤ := 1

def Candidate : ℤ := 0

def Rejected : ℤ := -1

/-- Append `v` to the `i`-th bucket (no-op when `i` is out of range). -/
def appendAt (l : List (List ℕ)) (i : ℕ) (v : ℕ) : List (List ℕ) :=
  l.set i (l.getD i [] ++ [v])

/-- The `Circles` constructor's neighbour recording: for every pair i < j
of initially intersecting circles, add j to i's list and i to j's list. -/
def buildNeighbours (cs : List SCircle) (tolerance : ℚ) : List (List ℕ) :=
  (pairsUpTo cs.length).foldl
    (fun nbrs ij =>
      if sintersects (sget cs ij.1) (sget cs ij.2) tolerance
      then appendAt (appendAt nbrs ij.1 ij.2) ij.2 ij.1
      else nbrs)
    (List.replicate cs.length [])

/-- `count_neighbours`: the number of `id`'s recorded neighbours whose
state is still Candidate. -/
def count_neighbours (nbrs : List (List ℕ)) (states : List ℤ) (id : ℕ) : ℕ :=
  ((nbrs.getD id []).filter fun k => decide (states.getD k 2 = Candidate)).length

/-- The per-round select sweep (first half of the `while` body): visit
circles 0..N−1 in order; for each still-Candidate circle record its
Candidate-neighbour count, and Select it at once if that count is zero.
Returns (states, nbrCount, ndone). -/
def selectPhase (nbrs : List (List ℕ)) (N : ℕ) (states : List ℤ) (ndone : ℕ) :
    List ℤ × List ℤ × ℕ :=
  (List.range N).foldl
    (fun acc i =>
      if acc.1.getD i 2 = Candidate then
        let c := count_neighbours nbrs acc.1 i
        let cnts := acc.2.1.set i (c : ℤ)
        if c = 0 then (acc.1.set i Selected, cnts, acc.2.2 + 1)
        else (acc.1, cnts, acc.2.2)
      else acc)
    (states, List.replicate N 0, ndone)

/-- Rcpp `max(v)` over an `IntegerVector` (junk 0 on the empty vector,
which the source never queries). -/
def vecMax (l : List ℤ) : ℤ := l.foldl max (l.headD 0)

/-- Rcpp `min(v)` over an `IntegerVector` (junk 0 on the empty vector). -/
def vecMin (l : List ℤ) : ℤ := l.foldl min (l.headD 0)

/-- Rcpp `max(v)` over a `NumericVector`. -/
def qvecMax (l : List ℚ) : ℚ := l.foldl max (l.headD 0)

/-- Rcpp `min(v)` over a `NumericVector`. -/
def qvecMin (l : List ℚ) : ℚ := l.foldl min (l.headD 0)

/-- `DBL_MAX`, the initial fill of `flag_smallest`'s radius vector, as an
exact decimal literal (a literal keeps the model kernel-evaluable; the
equation `DBL_MAX = 2 ^ 1024 - 2 ^ 971` is proved just below). -/
def DBL_MAX : ℚ :=
  179769313486231570814527423731704356798070567525844996598917476803157260780028538760589558632766878171540458953514382464234321326889464182768467546703537516986049910576551282076245490090389328944075868508455133942304583236903222948165808559332123348274797826204144723168738177180919299881250404026184124858368

theorem DBL_MAX_eq : DBL_MAX = 2 ^ 1024 - 2 ^ 971 := by
  norm_num [DBL_MAX]

/-- Numeric equality of rationals (Rcpp's `==` on numeric vectors),
spelled through the order so that the model stays kernel-evaluable;
`qeq_iff` identifies it with propositional equality. -/
def qeq (a b : ℚ) : Bool := !(decide (a < b)) && !(decide (b < a))

theorem qeq_iff (a b : ℚ) : qeq a b = true ↔ a = b := by
  unfold qeq
  rcases lt_trichotomy a b with h | h | h
  · simp [h, asymm h, ne_of_lt h]
  · simp [h, lt_irrefl]
  · simp [h, asymm h, (ne_of_lt h).symm]

/-- `flag_largest`: included circles get their radius, the rest 0.0; flag
the entries equal to the maximum. -/
def flag_largest (radii : List ℚ) (incl : List Bool) : List Bool :=
  let rv := (List.range radii.length).map
    (fun i => if incl.getD i false then radii.getD i 0 else 0)
  rv.map fun r => qeq r (qvecMax rv)

/-- `flag_smallest`: included circles get their radius, the rest DBL_MAX;
flag the entries equal to the minimum. -/
def flag_smallest (radii : List ℚ) (incl : List Bool) : List Bool :=
  let rv := (List.range radii.length).map
    (fun i => if incl.getD i false then radii.getD i 0 else DBL_MAX)
  rv.map fun r => qeq r (qvecMin rv)

/-- The `switch (ordering)` of `select_circles`, computing the flag vector
`b` (ordering codes 0..4 as in the source's enum; anything else leaves the
default all-false vector). -/
def computeB (radii : List ℚ) (cnts : List ℤ) (ordering : ℕ) : List Bool :=
  match ordering with
  | 0 => cnts.map fun c => decide (c = vecMax cnts)
  | 1 =>
      let x := cnts.filter fun c => decide (0 < c)
      let val := vecMin x
      cnts.map fun c => decide (c = val)
  | 2 => flag_largest radii (cnts.map fun c => decide (0 < c))
  | 3 => flag_smallest radii (cnts.map fun c => decide (0 < c))
  | 4 => cnts.map fun c => decide (0 < c)
  | _ => List.replicate cnts.length false

/-- `which`: indices of the true flags, ascending. -/
def which (b : List Bool) : List ℕ :=
  (List.range b.length).filter fun i => b.getD i false

/-- `RandomInts::nextInt(max) = (int)(u * (max + 1))` for the `pos`-th
stored uniform draw. -/
def nextInt (u : ℕ → ℚ) (pos : ℕ) (max : ℕ) : ℕ :=
  (⌊u pos * (max + 1 : ℚ)⌋).toNat

/-- `sample_one_of`: the head for a vector of length < 2, else a random
element; returns the choice and the advanced draw position. -/
def sample_one_of (ids : List ℕ) (u : ℕ → ℚ) (pos : ℕ) : ℕ × ℕ :=
  if ids.length < 2 then (ids.headD 0, pos)
  else (ids.getD (nextInt u pos (ids.length - 1)) 0, pos + 1)

/-- The loop state: circle states, the done counter, and the position in
the random stream. -/
structure SelState where
  states : List ℤ
  ndone : ℕ
  rpos : ℕ

/-- One iteration of the `while (ndone < N)` body: the select sweep, then
(if candidates remain) one rejection chosen per the ordering rule. -/
def oneIteration (cs : List SCircle) (tolerance : ℚ) (ordering : ℕ) (u : ℕ → ℚ)
    (s : SelState) : SelState :=
  let N := cs.length
  let nbrs := buildNeighbours cs tolerance
  let ph := selectPhase nbrs N s.states s.ndone
  if ph.2.2 < N then
    let b := computeB (cs.map SCircle.radius) ph.2.1 ordering
    let ids := which b
    let rem := sample_one_of ids u s.rpos
    ⟨ph.1.set rem.1 Rejected, ph.2.2 + 1, rem.2⟩
  else ⟨ph.1, ph.2.2, s.rpos⟩

/-- The `while (ndone < N)` loop with explicit fuel (one unit per
iteration). `selectLoop` with fuel `N` is proved below to be the loop's
fixpoint: `ndone` grows by at least one every iteration. -/
def selectLoop (cs : List SCircle) (tolerance : ℚ) (ordering : ℕ) (u : ℕ → ℚ) :
    ℕ → SelState → SelState
  | 0, s => s
  | fuel + 1, s =>
      if s.ndone < cs.length then
        selectLoop cs tolerance ordering u fuel (oneIteration cs tolerance ordering u s)
      else s

/-- The state after `m` executed iterations (iterating unconditionally;
`oneIteration` is the identity on `ndone ≥ N` states as far as the loop
is concerned). -/
def runState (cs : List SCircle) (tolerance : ℚ) (ordering : ℕ) (u : ℕ → ℚ)
    (m : ℕ) : SelState :=
  (oneIteration cs tolerance ordering u)^[m] ⟨List.replicate cs.length Candidate, 0, 0⟩

/-- `Circles::select_circles`: run the loop to completion (fuel N
suffices, as proved below) and return the Selected mask. -/
def select_circles (cs : List SCircle) (tolerance : ℚ) (ordering : ℕ) (u : ℕ → ℚ) :
    List Bool :=
  let N := cs.length
  let final := selectLoop cs tolerance ordering u N ⟨List.replicate N Candidate, 0, 0⟩
  (List.range N).map fun i => decide (final.states.getD i 2 = Selected)

/-- The `OrderingLabels` of the source. -/
def OrderingLabels : List String := ["maxov", "minov", "largest", "smallest", "random"]

/-- `select_non_overlapping`, the entry point: match the ordering label
against the table; run the selector on a match, error (`none`) otherwise. -/
def select_non_overlapping (xyr : List SCircle) (tolerance : ℚ) (ordering : String)
    (u : ℕ → ℚ) : Option (List Bool) :=
  match OrderingLabels.findIdx? (fun s => s == ordering) with
  | some m => some (select_circles xyr tolerance m u)
  | none => none

end SelectNO

namespace SelectNO

/- Generic list index/fold lemmas used by the selector proofs. -/

theorem getD_set_self {α : Type} (l : List α) (j : ℕ) (v d : α) (h : j < l.length) :
    (l.set j v).getD j d = v := by
  simp [List.getD, List.getElem?_set_eq_of_lt _ h]

theorem getD_set_ne {α : Type} (l : List α) (i j : ℕ) (v d : α) (h : j ≠ i) :
    (l.set j v).getD i d = l.getD i d := by
  simp [List.getD, List.getElem?_set_ne h]

theorem getD_eq_of_lt {α : Type} (l : List α) (i : ℕ) (d : α) (h : i < l.length) :
    l.getD i d = l.get ⟨i, h⟩ := by
  simp [List.getD, List.getElem?_eq_getElem h, List.get_eq_getElem]

theorem getD_mem {α : Type} (l : List α) (i : ℕ) (d : α) (h : i < l.length) :
    l.getD i d ∈ l := by
  rw [getD_eq_of_lt l i d h]
  exact l.get_mem _ _

theorem mem_iff_getD {α : Type} (l : List α) (x d : α) :
    x ∈ l ↔ ∃ i, i < l.length ∧ l.getD i d = x := by
  constructor
  · intro hx
    obtain ⟨⟨i, hi⟩, rfl⟩ := List.mem_iff_get.mp hx
    exact ⟨i, hi, (getD_eq_of_lt l i d hi).symm ▸ rfl⟩
  · rintro ⟨i, hi, rfl⟩
    exact getD_mem l i d hi

theorem le_foldl_max {α : Type} [LinearOrder α] (l : List α) (a : α) :
    a ≤ l.foldl max a := by
  induction l generalizing a with
  | nil => exact le_refl a
  | cons x xs ih => exact le_trans (le_max_left a x) (ih (max a x))

theorem le_foldl_max_of_mem {α : Type} [LinearOrder α] {l : List α} {x : α} (a : α)
    (hx : x ∈ l) : x ≤ l.foldl max a := by
  induction l generalizing a with
  | nil => cases hx
  | cons y ys ih =>
      rcases List.mem_cons.mp hx with rfl | hx'
      · exact le_trans (le_max_right a x) (le_foldl_max ys (max a x))
      · exact ih (max a y) hx'

theorem foldl_max_mem {α : Type} [LinearOrder α] (l : List α) (a : α) :
    l.foldl max a = a ∨ l.foldl max a ∈ l := by
  induction l generalizing a with
  | nil => exact Or.inl rfl
  | cons x xs ih =>
      rcases ih (max a x) with h | h
      · rw [List.foldl_cons, h]
        rcases max_choice a x with h' | h'
        · exact Or.inl h'
        · refine Or.inr ?_
          rw [h']
          exact List.mem_cons_self x xs
      · exact Or.inr (List.mem_cons_of_mem x h)

theorem foldl_min_le {α : Type} [LinearOrder α] (l : List α) (a : α) :
    l.foldl min a ≤ a := by
  induction l generalizing a with
  | nil => exact le_refl a
  | cons x xs ih => exact le_trans (ih (min a x)) (min_le_left a x)

theorem foldl_min_le_of_mem {α : Type} [LinearOrder α] {l : List α} {x : α} (a : α)
    (hx : x ∈ l) : l.foldl min a ≤ x := by
  induction l generalizing a with
  | nil => cases hx
  | cons y ys ih =>
      rcases List.mem_cons.mp hx with rfl | hx'
      · exact le_trans (foldl_min_le ys (min a x)) (min_le_right a x)
      · exact ih (min a y) hx'

theorem foldl_min_mem {α : Type} [LinearOrder α] (l : List α) (a : α) :
    l.foldl min a = a ∨ l.foldl min a ∈ l := by
  induction l generalizing a with
  | nil => exact Or.inl rfl
  | cons x xs ih =>
      rcases ih (min a x) with h | h
      · rw [List.foldl_cons, h]
        rcases min_choice a x with h' | h'
        · exact Or.inl h'
        · refine Or.inr ?_
          rw [h']
          exact List.mem_cons_self x xs
      · exact Or.inr (List.mem_cons_of_mem x h)

theorem vecMax_mem (l : List ℤ) (h : l ≠ []) : vecMax l ∈ l := by
  unfold vecMax
  rcases foldl_max_mem l (l.headD 0) with h' | h'
  · rw [h']
    cases l with
    | nil => exact absurd rfl h
    | cons x xs => exact List.mem_cons_self x xs
  · exact h'

theorem le_vecMax {l : List ℤ} {x : ℤ} (hx : x ∈ l) : x ≤ vecMax l :=
  le_foldl_max_of_mem _ hx

theorem vecMin_mem (l : List ℤ) (h : l ≠ []) : vecMin l ∈ l := by
  unfold vecMin
  rcases foldl_min_mem l (l.headD 0) with h' | h'
  · rw [h']
    cases l with
    | nil => exact absurd rfl h
    | cons x xs => exact List.mem_cons_self x xs
  · exact h'

theorem vecMin_le {l : List ℤ} {x : ℤ} (hx : x ∈ l) : vecMin l ≤ x :=
  foldl_min_le_of_mem _ hx

theorem qvecMax_mem (l : List ℚ) (h : l ≠ []) : qvecMax l ∈ l := by
  unfold qvecMax
  rcases foldl_max_mem l (l.headD 0) with h' | h'
  · rw [h']
    cases l with
    | nil => exact absurd rfl h
    | cons x xs => exact List.mem_cons_self x xs
  · exact h'

theorem le_qvecMax {l : List ℚ} {x : ℚ} (hx : x ∈ l) : x ≤ qvecMax l :=
  le_foldl_max_of_mem _ hx

theorem qvecMin_mem (l : List ℚ) (h : l ≠ []) : qvecMin l ∈ l := by
  unfold qvecMin
  rcases foldl_min_mem l (l.headD 0) with h' | h'
  · rw [h']
    cases l with
    | nil => exact absurd rfl h
    | cons x xs => exact List.mem_cons_self x xs
  · exact h'

theorem qvecMin_le {l : List ℚ} {x : ℚ} (hx : x ∈ l) : qvecMin l ≤ x :=
  foldl_min_le_of_mem _ hx

/- Characterisation of the recorded neighbour lists. -/

theorem sintersects_comm (a b : SCircle) (tol : ℚ) :
    sintersects a b tol = sintersects b a tol := by
  unfold sintersects
  rw [decide_eq_decide]
  have e1 : (a.x - b.x) * (a.x - b.x) = (b.x - a.x) * (b.x - a.x) := by ring
  have e2 : (a.y - b.y) * (a.y - b.y) = (b.y - a.y) * (b.y - a.y) := by ring
  have e3 : (a.radius + b.radius) * (a.radius + b.radius) * tol =
      (b.radius + a.radius) * (b.radius + a.radius) * tol := by ring
  rw [e1, e2, e3]

theorem appendAt_length (l : List (List ℕ)) (i v : ℕ) :
    (appendAt l i v).length = l.length := by
  simp [appendAt]

theorem mem_appendAt (l : List (List ℕ)) (i v x j : ℕ) :
    j ∈ (appendAt l i v).getD x [] ↔
      j ∈ l.getD x [] ∨ (x = i ∧ i < l.length ∧ j = v) := by
  unfold appendAt
  by_cases hx : x = i
  · subst hx
    by_cases hlen : x < l.length
    · rw [getD_set_self _ _ _ _ hlen]
      simp only [List.mem_append, List.mem_singleton]
      constructor
      · rintro (h | h)
        · exact Or.inl h
        · exact Or.inr ⟨by trivial, hlen, h⟩
      · rintro (h | ⟨_, _, h⟩)
        · exact Or.inl h
        · exact Or.inr h
    · rw [List.set_eq_of_length_le (le_of_not_lt hlen)]
      constructor
      · exact fun h => Or.inl h
      · rintro (h | ⟨_, hl, _⟩)
        · exact h
        · exact absurd hl hlen
  · rw [getD_set_ne _ _ _ _ _ (fun hc => hx hc.symm)]
    constructor
    · exact fun h => Or.inl h
    · rintro (h | ⟨hxi, _, _⟩)
      · exact h
      · exact absurd hxi hx


theorem buildNeighbours_fold (cs : List SCircle) (tol : ℚ) :
    ∀ (l : List (ℕ × ℕ)) (nbrs : List (List ℕ)),
      nbrs.length = cs.length →
      (∀ p ∈ l, p.1 < p.2 ∧ p.2 < cs.length) →
      ∀ i j,
        (j ∈ (l.foldl
          (fun nbrs ij =>
            if sintersects (sget cs ij.1) (sget cs ij.2) tol
            then appendAt (appendAt nbrs ij.1 ij.2) ij.2 ij.1
            else nbrs) nbrs).getD i [] ↔
          j ∈ nbrs.getD i [] ∨
            (((i, j) ∈ l ∨ (j, i) ∈ l) ∧
              sintersects (sget cs i) (sget cs j) tol = true)) := by
  intro l
  induction l with
  | nil =>
      intro nbrs _ _ i j
      simp
  | cons p rest ih =>
      intro nbrs hlen hdom i j
      obtain ⟨a, b⟩ := p
      have hab : a < b ∧ b < cs.length := hdom (a, b) (List.mem_cons_self _ _)
      have haN : a < cs.length := lt_trans hab.1 hab.2
      have hbN : b < cs.length := hab.2
      have hdom' : ∀ p ∈ rest, p.1 < p.2 ∧ p.2 < cs.length :=
        fun p hp => hdom p (List.mem_cons_of_mem _ hp)
      rw [List.foldl_cons]
      by_cases hs : sintersects (sget cs a) (sget cs b) tol = true
      · dsimp only
        rw [if_pos hs]
        have hlen' : (appendAt (appendAt nbrs a b) b a).length = cs.length := by
          rw [appendAt_length, appendAt_length]; exact hlen
        rw [ih (appendAt (appendAt nbrs a b) b a) hlen' hdom' i j]
        rw [mem_appendAt, mem_appendAt, appendAt_length]
        constructor
        · rintro (((hmem | ⟨rfl, -, rfl⟩) | ⟨rfl, -, rfl⟩) | ⟨hrest, hsij⟩)
          · exact Or.inl hmem
          · exact Or.inr ⟨Or.inl (List.mem_cons.mpr (Or.inl rfl)), hs⟩
          · refine Or.inr ⟨Or.inr (List.mem_cons.mpr (Or.inl rfl)), ?_⟩
            rw [sintersects_comm]
            exact hs
          · exact Or.inr ⟨Or.imp (List.mem_cons_of_mem _) (List.mem_cons_of_mem _) hrest, hsij⟩
        · rintro (hmem | ⟨hcons, hsij⟩)
          · exact Or.inl (Or.inl (Or.inl hmem))
          · rcases hcons with hc | hc
            · rcases List.mem_cons.mp hc with heq | hin
              · injection heq with h1 h2
                subst h1; subst h2
                exact Or.inl (Or.inl (Or.inr ⟨rfl, hlen ▸ haN, rfl⟩))
              · exact Or.inr ⟨Or.inl hin, hsij⟩
            · rcases List.mem_cons.mp hc with heq | hin
              · injection heq with h1 h2
                subst h1; subst h2
                exact Or.inl (Or.inr ⟨rfl, hlen ▸ hbN, rfl⟩)
              · exact Or.inr ⟨Or.inr hin, hsij⟩
      · dsimp only
        rw [if_neg hs]
        rw [ih nbrs hlen hdom' i j]
        constructor
        · rintro (hmem | ⟨hrest, hsij⟩)
          · exact Or.inl hmem
          · exact Or.inr ⟨Or.imp (List.mem_cons_of_mem _) (List.mem_cons_of_mem _) hrest, hsij⟩
        · rintro (hmem | ⟨hcons, hsij⟩)
          · exact Or.inl hmem
          · rcases hcons with hc | hc
            · rcases List.mem_cons.mp hc with heq | hin
              · injection heq with h1 h2
                subst h1; subst h2
                exact absurd hsij hs
              · exact Or.inr ⟨Or.inl hin, hsij⟩
            · rcases List.mem_cons.mp hc with heq | hin
              · injection heq with h1 h2
                subst h1; subst h2
                rw [sintersects_comm] at hsij
                exact absurd hsij hs
              · exact Or.inr ⟨Or.inr hin, hsij⟩

theorem buildNeighbours_length (cs : List SCircle) (tol : ℚ) :
    (buildNeighbours cs tol).length = cs.length := by
  unfold buildNeighbours
  have := foldl_invariant (fun nbrs : List (List ℕ) => nbrs.length = cs.length)
    (fun nbrs ij =>
      if sintersects (sget cs ij.1) (sget cs ij.2) tol
      then appendAt (appendAt nbrs ij.1 ij.2) ij.2 ij.1
      else nbrs)
    (pairsUpTo cs.length) (List.replicate cs.length [])
    (List.length_replicate _ _)
    (fun b a _ hb => by
      dsimp only
      split
      · rw [appendAt_length, appendAt_length]; exact hb
      · exact hb)
  exact this

/-- Membership of the initial-overlap adjacency lists, characterised
geometrically: j is recorded as a neighbour of i exactly when both
indices are in range, differ, and the circles initially intersect. -/
theorem mem_buildNeighbours (cs : List SCircle) (tol : ℚ) (i j : ℕ) :
    j ∈ (buildNeighbours cs tol).getD i [] ↔
      i < cs.length ∧ j < cs.length ∧ i ≠ j ∧
        sintersects (sget cs i) (sget cs j) tol = true := by
  unfold buildNeighbours
  rw [buildNeighbours_fold cs tol (pairsUpTo cs.length) (List.replicate cs.length [])
    (List.length_replicate _ _)
    (fun p hp => mem_pairsUpTo.mp hp) i j]
  have hrep : (List.replicate cs.length ([] : List ℕ)).getD i [] = [] := by
    simp [List.getD]
  rw [hrep]
  simp only [List.not_mem_nil, false_or, mem_pairsUpTo]
  constructor
  · rintro ⟨(h | h), hs⟩
    · exact ⟨lt_trans h.1 h.2, h.2, Nat.ne_of_lt h.1, hs⟩
    · exact ⟨h.2, lt_trans h.1 h.2, (Nat.ne_of_lt h.1).symm, hs⟩
  · rintro ⟨hi, hj, hne, hs⟩
    rcases Nat.lt_or_ge i j with h | h
    · exact ⟨Or.inl ⟨h, hj⟩, hs⟩
    · have : j < i := lt_of_le_of_ne h (fun hc => hne hc.symm)
      exact ⟨Or.inr ⟨this, hi⟩, hs⟩

/-- Symmetry of the recorded adjacency. -/
theorem mem_buildNeighbours_symm (cs : List SCircle) (tol : ℚ) (i j : ℕ)
    (h : j ∈ (buildNeighbours cs tol).getD i []) :
    i ∈ (buildNeighbours cs tol).getD j [] := by
  rw [mem_buildNeighbours] at h ⊢
  obtain ⟨hi, hj, hne, hs⟩ := h
  rw [sintersects_comm] at hs
  exact ⟨hj, hi, fun hc => hne hc.symm, hs⟩

/- The C1 invariant: circle states are well-formed, and every Selected
circle's recorded neighbours are all Rejected. -/

/-- States list has length N and holds only the three state constants. -/
def statesWF (N : ℕ) (states : List ℤ) : Prop :=
  states.length = N ∧ ∀ k, k < N →
    states.getD k 2 = Candidate ∨ states.getD k 2 = Selected ∨ states.getD k 2 = Rejected

/-- Every Selected circle's recorded neighbours are all Rejected. -/
def noSelNbr (nbrs : List (List ℕ)) (states : List ℤ) : Prop :=
  ∀ i, states.getD i 2 = Selected →
    ∀ j, j ∈ nbrs.getD i [] → states.getD j 2 = Rejected

theorem getD_replicate {α : Type} (N k : ℕ) (v d : α) (h : k < N) :
    (List.replicate N v).getD k d = v := by
  rw [List.getD_eq_getElem _ _ (by simpa using h)]
  exact List.getElem_replicate ..

theorem getD_map_range {α : Type} (N i : ℕ) (f : ℕ → α) (d : α) :
    ((List.range N).map f).getD i d = if i < N then f i else d := by
  rcases Nat.lt_or_ge i N with h | h
  · rw [List.getD_eq_getElem _ _ (by simpa using h), if_pos h]
    simp
  · rw [List.getD_eq_default _ _ (by simpa using h), if_neg (not_lt.mpr h)]

theorem count_neighbours_zero {nbrs : List (List ℕ)} {states : List ℤ} {i : ℕ}
    (h : count_neighbours nbrs states i = 0) :
    ∀ j, j ∈ nbrs.getD i [] → ¬ states.getD j 2 = Candidate := by
  intro j hj hc
  unfold count_neighbours at h
  rw [List.length_eq_zero] at h
  have := List.filter_eq_nil.mp h j hj
  simp only [decide_eq_true_eq] at this
  exact this hc

theorem selectPhase_invariant (cs : List SCircle) (tol : ℚ)
    (states : List ℤ) (ndone : ℕ)
    (hwf : statesWF cs.length states)
    (hinv : noSelNbr (buildNeighbours cs tol) states) :
    statesWF cs.length (selectPhase (buildNeighbours cs tol) cs.length states ndone).1 ∧
    noSelNbr (buildNeighbours cs tol)
      (selectPhase (buildNeighbours cs tol) cs.length states ndone).1 := by
  unfold selectPhase
  have := foldl_invariant
    (fun acc : List ℤ × List ℤ × ℕ =>
      statesWF cs.length acc.1 ∧ noSelNbr (buildNeighbours cs tol) acc.1)
    (fun acc i =>
      if acc.1.getD i 2 = Candidate then
        let c := count_neighbours (buildNeighbours cs tol) acc.1 i
        let cnts := acc.2.1.set i (c : ℤ)
        if c = 0 then (acc.1.set i Selected, cnts, acc.2.2 + 1)
        else (acc.1, cnts, acc.2.2)
      else acc)
    (List.range cs.length) (states, List.replicate cs.length 0, ndone)
    ⟨hwf, hinv⟩ ?_
  · exact this
  · intro acc i hi ⟨hwf', hinv'⟩
    have hiN : i < cs.length := List.mem_range.mp hi
    have hilen : i < acc.1.length := hwf'.1 ▸ hiN
    dsimp only
    by_cases hc : acc.1.getD i 2 = Candidate
    · rw [if_pos hc]
      by_cases hz : count_neighbours (buildNeighbours cs tol) acc.1 i = 0
      · rw [if_pos hz]
        dsimp only
        refine ⟨⟨by simpa using hwf'.1, ?_⟩, ?_⟩
        · intro k hk
          by_cases hki : k = i
          · subst hki
            rw [getD_set_self _ _ _ _ hilen]
            exact Or.inr (Or.inl rfl)
          · rw [getD_set_ne _ _ _ _ _ (fun h => hki h.symm)]
            exact hwf'.2 k hk
        · intro i' hsel' j hj
          by_cases hii : i' = i
          · subst hii
            have hjmem := hj
            rw [mem_buildNeighbours] at hjmem
            obtain ⟨_, hjN, hij, _⟩ := hjmem
            have hnotc : ¬ acc.1.getD j 2 = Candidate :=
              count_neighbours_zero hz j hj
            have hjwf := hwf'.2 j hjN
            have hjval : acc.1.getD j 2 = Rejected := by
              rcases hjwf with h | h | h
              · exact absurd h hnotc
              · exfalso
                have hsymm := mem_buildNeighbours_symm cs tol i' j hj
                have := hinv' j h i' hsymm
                rw [hc] at this
                exact absurd this (by decide)
              · exact h
            rw [getD_set_ne _ _ _ _ _ hij]
            exact hjval
          · rw [getD_set_ne _ _ _ _ _ (fun h => hii h.symm)] at hsel'
            have hold := hinv' i' hsel' j hj
            by_cases hji : j = i
            · subst hji
              rw [hc] at hold
              exact absurd hold (by decide)
            · rw [getD_set_ne _ _ _ _ _ (fun h => hji h.symm)]
              exact hold
      · rw [if_neg hz]
        exact ⟨hwf', hinv'⟩
    · rw [if_neg hc]
      exact ⟨hwf', hinv'⟩

theorem setRejected_invariant (cs : List SCircle) (tol : ℚ)
    (states : List ℤ) (r : ℕ)
    (hwf : statesWF cs.length states)
    (hinv : noSelNbr (buildNeighbours cs tol) states) :
    statesWF cs.length (states.set r Rejected) ∧
    noSelNbr (buildNeighbours cs tol) (states.set r Rejected) := by
  by_cases hr : r < states.length
  · refine ⟨⟨by simpa using hwf.1, ?_⟩, ?_⟩
    · intro k hk
      by_cases hkr : k = r
      · subst hkr
        rw [getD_set_self _ _ _ _ hr]
        exact Or.inr (Or.inr rfl)
      · rw [getD_set_ne _ _ _ _ _ (fun h => hkr h.symm)]
        exact hwf.2 k hk
    · intro i hsel j hj
      by_cases hir : i = r
      · subst hir
        rw [getD_set_self _ _ _ _ hr] at hsel
        exact absurd hsel (by decide)
      · rw [getD_set_ne _ _ _ _ _ (fun h => hir h.symm)] at hsel
        have hold := hinv i hsel j hj
        by_cases hjr : j = r
        · subst hjr
          rw [getD_set_self _ _ _ _ hr]
        · rw [getD_set_ne _ _ _ _ _ (fun h => hjr h.symm)]
          exact hold
  · rw [List.set_eq_of_length_le (le_of_not_lt hr)]
    exact ⟨hwf, hinv⟩

theorem oneIteration_invariant (cs : List SCircle) (tol : ℚ) (ordering : ℕ)
    (u : ℕ → ℚ) (s : SelState)
    (hwf : statesWF cs.length s.states)
    (hinv : noSelNbr (buildNeighbours cs tol) s.states) :
    statesWF cs.length (oneIteration cs tol ordering u s).states ∧
    noSelNbr (buildNeighbours cs tol) (oneIteration cs tol ordering u s).states := by
  unfold oneIteration
  dsimp only
  obtain ⟨hwf', hinv'⟩ := selectPhase_invariant cs tol s.states s.ndone hwf hinv
  split
  · exact setRejected_invariant cs tol _ _ hwf' hinv'
  · exact ⟨hwf', hinv'⟩

theorem selectLoop_invariant (cs : List SCircle) (tol : ℚ) (ordering : ℕ)
    (u : ℕ → ℚ) :
    ∀ (fuel : ℕ) (s : SelState),
      statesWF cs.length s.states →
      noSelNbr (buildNeighbours cs tol) s.states →
      statesWF cs.length (selectLoop cs tol ordering u fuel s).states ∧
      noSelNbr (buildNeighbours cs tol) (selectLoop cs tol ordering u fuel s).states := by
  intro fuel
  induction fuel with
  | zero => exact fun s hwf hinv => ⟨hwf, hinv⟩
  | succ f ih =>
      intro s hwf hinv
      rw [selectLoop]
      split
      · obtain ⟨hwf', hinv'⟩ := oneIteration_invariant cs tol ordering u s hwf hinv
        exact ih _ hwf' hinv'
      · exact ⟨hwf, hinv⟩

theorem init_invariant (cs : List SCircle) (tol : ℚ) :
    statesWF cs.length (List.replicate cs.length Candidate) ∧
    noSelNbr (buildNeighbours cs tol) (List.replicate cs.length Candidate) := by
  constructor
  · exact ⟨List.length_replicate _ _, fun k hk => Or.inl (getD_replicate _ _ _ _ hk)⟩
  · intro i hsel j _
    exfalso
    by_cases hi : i < cs.length
    · rw [getD_replicate _ _ _ _ hi] at hsel
      exact absurd hsel (by decide)
    · rw [List.getD_eq_default _ _ (by simpa using not_lt.mp hi)] at hsel
      exact absurd hsel (by decide)

/-- C1: for every circle set, tolerance, ordering keyword and random
stream, whenever `select_non_overlapping` returns a mask, no two circles
marked true in it were adjacent in the initial-overlap adjacency
(`dx² + dy² < (rᵢ+rⱼ)²·tolerance`, computed once at the start). -/
theorem select_non_overlapping_independent
    (xyr : List SCircle) (tolerance : ℚ) (ordering : String) (u : ℕ → ℚ)
    (sel : List Bool)
    (hsel : select_non_overlapping xyr tolerance ordering u = some sel)
    (i j : ℕ) (hne : i ≠ j)
    (hi : sel.getD i false = true) (hj : sel.getD j false = true) :
    ¬ (((sget xyr i).x - (sget xyr j).x) * ((sget xyr i).x - (sget xyr j).x) +
       ((sget xyr i).y - (sget xyr j).y) * ((sget xyr i).y - (sget xyr j).y) <
       ((sget xyr i).radius + (sget xyr j).radius) *
         ((sget xyr i).radius + (sget xyr j).radius) * tolerance) := by
  intro hlt
  unfold select_non_overlapping at hsel
  rcases hm : OrderingLabels.findIdx? (fun s => s == ordering) with _ | m
  · rw [hm] at hsel
    exact absurd hsel (by simp)
  · rw [hm] at hsel
    have hsel' : sel = select_circles xyr tolerance m u := by
      injection hsel with h
      exact h.symm
    subst hsel'
    have hini := init_invariant xyr tolerance
    have hfin := selectLoop_invariant xyr tolerance m u xyr.length
      ⟨List.replicate xyr.length Candidate, 0, 0⟩ hini.1 hini.2
    set final := selectLoop xyr tolerance m u xyr.length
      ⟨List.replicate xyr.length Candidate, 0, 0⟩ with hfinal
    have hmask : ∀ k, (select_circles xyr tolerance m u).getD k false = true →
        k < xyr.length ∧ final.states.getD k 2 = Selected := by
      intro k hk
      unfold select_circles at hk
      rw [getD_map_range] at hk
      split at hk
      · refine ⟨by assumption, ?_⟩
        rw [← hfinal] at hk
        exact of_decide_eq_true hk
      · exact absurd hk (by simp)
    obtain ⟨hiN, hisel⟩ := hmask i hi
    obtain ⟨hjN, hjsel⟩ := hmask j hj
    have hadj : j ∈ (buildNeighbours xyr tolerance).getD i [] := by
      rw [mem_buildNeighbours]
      exact ⟨hiN, hjN, hne, decide_eq_true hlt⟩
    have := hfin.2 i hisel j hadj
    rw [hjsel] at this
    exact absurd this (by decide)

/- Counting the circles in a given state, for the per-iteration claims. -/

/-- The number of circles (indices below N) still in the Candidate state. -/
def candCount (N : ℕ) (states : List ℤ) : ℕ :=
  (List.range N).countP fun k => decide (states.getD k 2 = Candidate)

/-- The number of circles (indices below N) in the Rejected state. -/
def rejCount (N : ℕ) (states : List ℤ) : ℕ :=
  (List.range N).countP fun k => decide (states.getD k 2 = Rejected)

theorem countP_eq_of {p q : ℕ → Bool} :
    ∀ (l : List ℕ), (∀ j ∈ l, p j = q j) → l.countP p = l.countP q := by
  intro l
  induction l with
  | nil => intro _; rfl
  | cons a t ih =>
      intro h
      have ha := h a (List.mem_cons_self _ _)
      have ht := ih fun j hj => h j (List.mem_cons_of_mem _ hj)
      by_cases hp : p a = true
      · rw [List.countP_cons_of_pos _ _ hp, List.countP_cons_of_pos _ _ (ha ▸ hp), ht]
      · rw [List.countP_cons_of_neg _ _ hp,
          List.countP_cons_of_neg _ _ (by rw [← ha]; exact hp), ht]

theorem countP_flip_one {p q : ℕ → Bool} {i : ℕ} :
    ∀ (l : List ℕ), l.Nodup → i ∈ l → p i = true → q i = false →
      (∀ j ∈ l, j ≠ i → p j = q j) → l.countP q + 1 = l.countP p := by
  intro l
  induction l with
  | nil => intro _ hi; cases hi
  | cons a t ih =>
      intro hnd hi hp hq hcong
      have hnd' := List.nodup_cons.mp hnd
      rcases List.mem_cons.mp hi with rfl | hit
      · rw [List.countP_cons_of_pos _ _ hp, List.countP_cons_of_neg _ _ (by rw [hq]; simp)]
        have : t.countP p = t.countP q :=
          countP_eq_of t fun j hj => hcong j (List.mem_cons_of_mem _ hj)
            (fun hc => hnd'.1 (hc ▸ hj))
        rw [this]
      · have ha : p a = q a := hcong a (List.mem_cons_self _ _)
          (fun hc => hnd'.1 (hc ▸ hit))
        have ht := ih hnd'.2 hit hp hq fun j hj => hcong j (List.mem_cons_of_mem _ hj)
        by_cases hb : p a = true
        · rw [List.countP_cons_of_pos _ _ hb, List.countP_cons_of_pos _ _ (ha ▸ hb), ← ht]
        · rw [List.countP_cons_of_neg _ _ hb,
            List.countP_cons_of_neg _ _ (by rw [← ha]; exact hb), ← ht]

/-- Setting a Candidate entry below N to a non-Candidate value lowers the
candidate count by exactly one. -/
theorem candCount_set (N : ℕ) (states : List ℤ) (i : ℕ) (v : ℤ)
    (hi : i < N) (hlen : i < states.length)
    (hc : states.getD i 2 = Candidate) (hv : v ≠ Candidate) :
    candCount N (states.set i v) + 1 = candCount N states := by
  unfold candCount
  refine countP_flip_one (List.range N) (List.nodup_range N) (List.mem_range.mpr hi) ?_ ?_ ?_
  · exact decide_eq_true hc
  · apply decide_eq_false
    rw [getD_set_self _ _ _ _ hlen]
    exact hv
  · intro j _ hj
    rw [getD_set_ne _ _ _ _ _ (fun hc' => hj hc'.symm)]

/-- Setting a non-Rejected entry below N to Rejected raises the rejected
count by exactly one. -/
theorem rejCount_set (N : ℕ) (states : List ℤ) (i : ℕ)
    (hi : i < N) (hlen : i < states.length)
    (hc : states.getD i 2 ≠ Rejected) :
    rejCount N (states.set i Rejected) = rejCount N states + 1 := by
  unfold rejCount
  refine (countP_flip_one (List.range N) (List.nodup_range N)
    (List.mem_range.mpr hi) ?_ ?_ ?_).symm
  · apply decide_eq_true
    rw [getD_set_self _ _ _ _ hlen]
  · exact decide_eq_false hc
  · intro j _ hj
    show decide ((states.set i Rejected).getD j 2 = Rejected) =
      decide (states.getD j 2 = Rejected)
    rw [getD_set_ne _ _ _ _ _ (fun hc' => hj hc'.symm)]

/-- Selecting a zero-count Candidate preserves the C1 invariant (the
selected circle's neighbours are forced to be Rejected). -/
theorem select_step_invariant (cs : List SCircle) (tol : ℚ) (st : List ℤ) (n : ℕ)
    (hn : n < st.length)
    (hwf : statesWF cs.length st)
    (hinv : noSelNbr (buildNeighbours cs tol) st)
    (hc : st.getD n 2 = Candidate)
    (hz : count_neighbours (buildNeighbours cs tol) st n = 0) :
    statesWF cs.length (st.set n Selected) ∧
    noSelNbr (buildNeighbours cs tol) (st.set n Selected) := by
  refine ⟨⟨by simpa using hwf.1, ?_⟩, ?_⟩
  · intro k hk
    by_cases hki : k = n
    · subst hki
      rw [getD_set_self _ _ _ _ hn]
      exact Or.inr (Or.inl rfl)
    · rw [getD_set_ne _ _ _ _ _ (fun h => hki h.symm)]
      exact hwf.2 k hk
  · intro i' hsel' j hj
    by_cases hii : i' = n
    · subst hii
      have hjmem := hj
      rw [mem_buildNeighbours] at hjmem
      obtain ⟨_, hjN, hij, _⟩ := hjmem
      have hnotc : ¬ st.getD j 2 = Candidate := count_neighbours_zero hz j hj
      have hjwf := hwf.2 j hjN
      have hjval : st.getD j 2 = Rejected := by
        rcases hjwf with h | h | h
        · exact absurd h hnotc
        · exfalso
          have hsymm := mem_buildNeighbours_symm cs tol i' j hj
          have := hinv j h i' hsymm
          rw [hc] at this
          exact absurd this (by decide)
        · exact h
      rw [getD_set_ne _ _ _ _ _ hij]
      exact hjval
    · rw [getD_set_ne _ _ _ _ _ (fun h => hii h.symm)] at hsel'
      have hold := hinv i' hsel' j hj
      by_cases hji : j = n
      · subst hji
        rw [hc] at hold
        exact absurd hold (by decide)
      · rw [getD_set_ne _ _ _ _ _ (fun h => hji h.symm)]
        exact hold

/-- All the facts the per-round select sweep establishes, by induction on
the prefix of processed circle indices. -/
theorem selectPhase_fold_facts (cs : List SCircle) (tol : ℚ)
    (s : List ℤ) (nd0 : ℕ)
    (hwf : statesWF cs.length s)
    (hinv : noSelNbr (buildNeighbours cs tol) s) :
    ∀ n, n ≤ cs.length →
      statesWF cs.length ((List.range n).foldl
        (fun acc i =>
          if acc.1.getD i 2 = Candidate then
            let c := count_neighbours (buildNeighbours cs tol) acc.1 i
            let cnts := acc.2.1.set i (c : ℤ)
            if c = 0 then (acc.1.set i Selected, cnts, acc.2.2 + 1)
            else (acc.1, cnts, acc.2.2)
          else acc)
        (s, List.replicate cs.length 0, nd0)).1 ∧
      noSelNbr (buildNeighbours cs tol) ((List.range n).foldl
        (fun acc i =>
          if acc.1.getD i 2 = Candidate then
            let c := count_neighbours (buildNeighbours cs tol) acc.1 i
            let cnts := acc.2.1.set i (c : ℤ)
            if c = 0 then (acc.1.set i Selected, cnts, acc.2.2 + 1)
            else (acc.1, cnts, acc.2.2)
          else acc)
        (s, List.replicate cs.length 0, nd0)).1 ∧
      (((List.range n).foldl
        (fun acc i =>
          if acc.1.getD i 2 = Candidate then
            let c := count_neighbours (buildNeighbours cs tol) acc.1 i
            let cnts := acc.2.1.set i (c : ℤ)
            if c = 0 then (acc.1.set i Selected, cnts, acc.2.2 + 1)
            else (acc.1, cnts, acc.2.2)
          else acc)
        (s, List.replicate cs.length 0, nd0)).2.1.length = cs.length) ∧
      (∀ i, ((List.range n).foldl
        (fun acc i =>
          if acc.1.getD i 2 = Candidate then
            let c := count_neighbours (buildNeighbours cs tol) acc.1 i
            let cnts := acc.2.1.set i (c : ℤ)
            if c = 0 then (acc.1.set i Selected, cnts, acc.2.2 + 1)
            else (acc.1, cnts, acc.2.2)
          else acc)
        (s, List.replicate cs.length 0, nd0)).1.getD i 2 = s.getD i 2 ∨
        (s.getD i 2 = Candidate ∧ ((List.range n).foldl
        (fun acc i =>
          if acc.1.getD i 2 = Candidate then
            let c := count_neighbours (buildNeighbours cs tol) acc.1 i
            let cnts := acc.2.1.set i (c : ℤ)
            if c = 0 then (acc.1.set i Selected, cnts, acc.2.2 + 1)
            else (acc.1, cnts, acc.2.2)
          else acc)
        (s, List.replicate cs.length 0, nd0)).1.getD i 2 = Selected)) ∧
      (∀ i, i < n → ((List.range n).foldl
        (fun acc i =>
          if acc.1.getD i 2 = Candidate then
            let c := count_neighbours (buildNeighbours cs tol) acc.1 i
            let cnts := acc.2.1.set i (c : ℤ)
            if c = 0 then (acc.1.set i Selected, cnts, acc.2.2 + 1)
            else (acc.1, cnts, acc.2.2)
          else acc)
        (s, List.replicate cs.length 0, nd0)).1.getD i 2 = Candidate →
        1 ≤ ((List.range n).foldl
        (fun acc i =>
          if acc.1.getD i 2 = Candidate then
            let c := count_neighbours (buildNeighbours cs tol) acc.1 i
            let cnts := acc.2.1.set i (c : ℤ)
            if c = 0 then (acc.1.set i Selected, cnts, acc.2.2 + 1)
            else (acc.1, cnts, acc.2.2)
          else acc)
        (s, List.replicate cs.length 0, nd0)).2.1.getD i 0) ∧
      (∀ i, n ≤ i → ((List.range n).foldl
        (fun acc i =>
          if acc.1.getD i 2 = Candidate then
            let c := count_neighbours (buildNeighbours cs tol) acc.1 i
            let cnts := acc.2.1.set i (c : ℤ)
            if c = 0 then (acc.1.set i Selected, cnts, acc.2.2 + 1)
            else (acc.1, cnts, acc.2.2)
          else acc)
        (s, List.replicate cs.length 0, nd0)).2.1.getD i 0 = 0 ∧
        ((List.range n).foldl
        (fun acc i =>
          if acc.1.getD i 2 = Candidate then
            let c := count_neighbours (buildNeighbours cs tol) acc.1 i
            let cnts := acc.2.1.set i (c : ℤ)
            if c = 0 then (acc.1.set i Selected, cnts, acc.2.2 + 1)
            else (acc.1, cnts, acc.2.2)
          else acc)
        (s, List.replicate cs.length 0, nd0)).1.getD i 2 = s.getD i 2) ∧
      (∀ i, i < n → ¬ ((List.range n).foldl
        (fun acc i =>
          if acc.1.getD i 2 = Candidate then
            let c := count_neighbours (buildNeighbours cs tol) acc.1 i
            let cnts := acc.2.1.set i (c : ℤ)
            if c = 0 then (acc.1.set i Selected, cnts, acc.2.2 + 1)
            else (acc.1, cnts, acc.2.2)
          else acc)
        (s, List.replicate cs.length 0, nd0)).1.getD i 2 = Candidate →
        ((List.range n).foldl
        (fun acc i =>
          if acc.1.getD i 2 = Candidate then
            let c := count_neighbours (buildNeighbours cs tol) acc.1 i
            let cnts := acc.2.1.set i (c : ℤ)
            if c = 0 then (acc.1.set i Selected, cnts, acc.2.2 + 1)
            else (acc.1, cnts, acc.2.2)
          else acc)
        (s, List.replicate cs.length 0, nd0)).2.1.getD i 0 = 0) ∧
      (((List.range n).foldl
        (fun acc i =>
          if acc.1.getD i 2 = Candidate then
            let c := count_neighbours (buildNeighbours cs tol) acc.1 i
            let cnts := acc.2.1.set i (c : ℤ)
            if c = 0 then (acc.1.set i Selected, cnts, acc.2.2 + 1)
            else (acc.1, cnts, acc.2.2)
          else acc)
        (s, List.replicate cs.length 0, nd0)).2.2 +
        candCount cs.length ((List.range n).foldl
        (fun acc i =>
          if acc.1.getD i 2 = Candidate then
            let c := count_neighbours (buildNeighbours cs tol) acc.1 i
            let cnts := acc.2.1.set i (c : ℤ)
            if c = 0 then (acc.1.set i Selected, cnts, acc.2.2 + 1)
            else (acc.1, cnts, acc.2.2)
          else acc)
        (s, List.replicate cs.length 0, nd0)).1 = nd0 + candCount cs.length s) := by
  intro n
  induction n with
  | zero =>
      intro _
      simp only [List.range_zero, List.foldl_nil]
      refine ⟨hwf, hinv, List.length_replicate _ _, fun i => Or.inl trivial, ?_, ?_, ?_, trivial⟩
      · intro i hi
        omega
      · intro i _
        refine ⟨?_, trivial⟩
        rcases Nat.lt_or_ge i cs.length with h | h
        · exact getD_replicate _ _ _ _ h
        · exact List.getD_eq_default _ _ (by simpa using h)
      · intro i hi
        omega
  | succ n ih =>
      intro hn1
      have hnN : n < cs.length := hn1
      obtain ⟨ihwf, ihinv, ihclen, ihP2, ihP3, ihP6, ihP7, ihP8⟩ := ih (le_of_lt hnN)
      rw [List.range_succ, List.foldl_append, List.foldl_cons, List.foldl_nil]
      set acc := (List.range n).foldl
        (fun acc i =>
          if acc.1.getD i 2 = Candidate then
            let c := count_neighbours (buildNeighbours cs tol) acc.1 i
            let cnts := acc.2.1.set i (c : ℤ)
            if c = 0 then (acc.1.set i Selected, cnts, acc.2.2 + 1)
            else (acc.1, cnts, acc.2.2)
          else acc)
        (s, List.replicate cs.length 0, nd0) with hacc
      have hslen : acc.1.length = cs.length := ihwf.1
      have hnlen : n < acc.1.length := hslen ▸ hnN
      have hnclen : n < acc.2.1.length := ihclen ▸ hnN
      by_cases hc : acc.1.getD n 2 = Candidate
      · rw [if_pos hc]
        by_cases hz : count_neighbours (buildNeighbours cs tol) acc.1 n = 0
        · rw [if_pos hz]
          dsimp only
          have hstep := select_step_invariant cs tol acc.1 n hnlen ihwf ihinv hc hz
          refine ⟨hstep.1, hstep.2, by simpa using ihclen, ?_, ?_, ?_, ?_, ?_⟩
          · intro i
            by_cases hin : i = n
            · subst hin
              refine Or.inr ⟨?_, getD_set_self _ _ _ _ hnlen⟩
              rw [← (ihP6 i le_rfl).2]
              exact hc
            · rw [getD_set_ne _ _ _ _ _ (fun h => hin h.symm)]
              exact ihP2 i
          · intro i hi
            by_cases hin : i = n
            · subst hin
              rw [getD_set_self _ _ _ _ hnlen]
              intro hcon
              exact absurd hcon (by decide)
            · rw [getD_set_ne _ _ _ _ _ (fun h => hin h.symm),
                getD_set_ne _ _ _ _ _ (fun h => hin h.symm)]
              exact ihP3 i (by omega)
          · intro i hi
            have hin : i ≠ n := by omega
            rw [getD_set_ne _ _ _ _ _ (fun h => hin h.symm),
              getD_set_ne _ _ _ _ _ (fun h => hin h.symm)]
            exact ihP6 i (by omega)
          · intro i hi hnc
            by_cases hin : i = n
            · subst hin
              rw [getD_set_self _ _ _ _ hnclen, hz]
              rfl
            · rw [getD_set_ne _ _ _ _ _ (fun h => hin h.symm)] at hnc
              rw [getD_set_ne _ _ _ _ _ (fun h => hin h.symm)]
              exact ihP7 i (by omega) hnc
          · have hcand := candCount_set cs.length acc.1 n Selected hnN hnlen hc (by decide)
            omega
        · rw [if_neg hz]
          dsimp only
          refine ⟨ihwf, ihinv, by simpa using ihclen, ihP2, ?_, ?_, ?_, ihP8⟩
          · intro i hi hcand
            by_cases hin : i = n
            · subst hin
              rw [getD_set_self _ _ _ _ hnclen]
              exact_mod_cast Nat.one_le_iff_ne_zero.mpr hz
            · rw [getD_set_ne _ _ _ _ _ (fun h => hin h.symm)]
              exact ihP3 i (by omega) hcand
          · intro i hi
            have hin : i ≠ n := by omega
            rw [getD_set_ne _ _ _ _ _ (fun h => hin h.symm)]
            exact ihP6 i (by omega)
          · intro i hi hnc
            by_cases hin : i = n
            · subst hin
              exact absurd hc hnc
            · rw [getD_set_ne _ _ _ _ _ (fun h => hin h.symm)]
              exact ihP7 i (by omega) hnc
      · rw [if_neg hc]
        refine ⟨ihwf, ihinv, ihclen, ihP2, ?_, ?_, ?_, ihP8⟩
        · intro i hi hcand
          by_cases hin : i = n
          · subst hin
            exact absurd hcand hc
          · exact ihP3 i (by omega) hcand
        · intro i hi
          exact ihP6 i (by omega)
        · intro i hi hnc
          by_cases hin : i = n
          · subst hin
            exact (ihP6 i le_rfl).1
          · exact ihP7 i (by omega) hnc

theorem selectPhase_facts (cs : List SCircle) (tol : ℚ) (s : List ℤ) (nd0 : ℕ)
    (hwf : statesWF cs.length s)
    (hinv : noSelNbr (buildNeighbours cs tol) s) :
    statesWF cs.length (selectPhase (buildNeighbours cs tol) cs.length s nd0).1 ∧
    noSelNbr (buildNeighbours cs tol)
      (selectPhase (buildNeighbours cs tol) cs.length s nd0).1 ∧
    (selectPhase (buildNeighbours cs tol) cs.length s nd0).2.1.length = cs.length ∧
    (∀ i, (selectPhase (buildNeighbours cs tol) cs.length s nd0).1.getD i 2 = s.getD i 2 ∨
      (s.getD i 2 = Candidate ∧
        (selectPhase (buildNeighbours cs tol) cs.length s nd0).1.getD i 2 = Selected)) ∧
    (∀ i, i < cs.length →
      (selectPhase (buildNeighbours cs tol) cs.length s nd0).1.getD i 2 = Candidate →
      1 ≤ (selectPhase (buildNeighbours cs tol) cs.length s nd0).2.1.getD i 0) ∧
    (∀ i, i < cs.length →
      ¬ (selectPhase (buildNeighbours cs tol) cs.length s nd0).1.getD i 2 = Candidate →
      (selectPhase (buildNeighbours cs tol) cs.length s nd0).2.1.getD i 0 = 0) ∧
    ((selectPhase (buildNeighbours cs tol) cs.length s nd0).2.2 +
      candCount cs.length (selectPhase (buildNeighbours cs tol) cs.length s nd0).1 =
      nd0 + candCount cs.length s) := by
  have h := selectPhase_fold_facts cs tol s nd0 hwf hinv cs.length le_rfl
  exact ⟨h.1, h.2.1, h.2.2.1, h.2.2.2.1, h.2.2.2.2.1, h.2.2.2.2.2.2.1, h.2.2.2.2.2.2.2⟩

theorem getD_map_lt {α β : Type} (f : α → β) (l : List α) (i : ℕ) (h : i < l.length)
    (d : β) (d0 : α) : (l.map f).getD i d = f (l.getD i d0) := by
  rw [getD_eq_of_lt _ _ _ (by simpa using h), getD_eq_of_lt _ _ _ h]
  simp

theorem mem_which {b : List Bool} {i : ℕ} :
    i ∈ which b ↔ i < b.length ∧ b.getD i false = true := by
  simp [which, List.mem_filter, List.mem_range]

theorem headD_mem {l : List ℕ} (h : l ≠ []) (d : ℕ) : l.headD d ∈ l := by
  cases l with
  | nil => exact absurd rfl h
  | cons a t => exact List.mem_cons_self a t

theorem sample_one_of_mem (ids : List ℕ) (u : ℕ → ℚ) (pos : ℕ)
    (hne : ids ≠ []) (h0 : 0 ≤ u pos) (h1 : u pos < 1) :
    (sample_one_of ids u pos).1 ∈ ids := by
  unfold sample_one_of
  split
  · exact headD_mem hne 0
  · dsimp only
    apply getD_mem
    rename_i hlen
    have hlen2 : 2 ≤ ids.length := by omega
    unfold nextInt
    have harg : ((ids.length - 1 : ℕ) : ℚ) + 1 = (ids.length : ℚ) := by
      have h' : (ids.length - 1 : ℕ) + 1 = ids.length := by omega
      exact_mod_cast congrArg (Nat.cast (R := ℚ)) h'
    rw [harg]
    have hL : (0:ℚ) < (ids.length : ℚ) := by
      exact_mod_cast Nat.pos_of_ne_zero (by omega)
    have hmul : u pos * (ids.length : ℚ) < (ids.length : ℚ) :=
      mul_lt_of_lt_one_left hL h1
    have hfl : ⌊u pos * (ids.length : ℚ)⌋ < (ids.length : ℤ) := by
      rw [Int.floor_lt]
      exact_mod_cast hmul
    omega

theorem mem_which_map {α : Type} {v : List α} {g : α → Bool} {j : ℕ} (d : α) :
    j ∈ which (v.map g) ↔ j < v.length ∧ g (v.getD j d) = true := by
  rw [mem_which]
  constructor
  · rintro ⟨hj, hb⟩
    rw [List.length_map] at hj
    refine ⟨hj, ?_⟩
    rwa [getD_map_lt g v j hj false d] at hb
  · rintro ⟨hj, hb⟩
    refine ⟨by simpa using hj, ?_⟩
    rwa [getD_map_lt g v j hj false d]

theorem flag_largest_facts (radii : List ℚ) (incl : List Bool)
    (hpos : ∀ i, i < radii.length → 0 < radii.getD i 0)
    (k0 : ℕ) (hk0 : k0 < radii.length) (hinc0 : incl.getD k0 false = true) :
    which (flag_largest radii incl) ≠ [] ∧
    ∀ j ∈ which (flag_largest radii incl),
      j < radii.length ∧ incl.getD j false = true := by
  unfold flag_largest
  set rv := (List.range radii.length).map
    (fun i => if incl.getD i false then radii.getD i 0 else 0) with hrv
  have rvlen : rv.length = radii.length := by
    rw [hrv, List.length_map, List.length_range]
  have rvEntry : ∀ i, rv.getD i 0 =
      if i < radii.length then (if incl.getD i false then radii.getD i 0 else 0)
      else 0 := by
    intro i
    rw [hrv, getD_map_range]
  have hentry0 : rv.getD k0 0 = radii.getD k0 0 := by
    rw [rvEntry k0, if_pos hk0, if_pos hinc0]
  have hMpos : 0 < qvecMax rv := by
    refine lt_of_lt_of_le (hpos k0 hk0) ?_
    rw [← hentry0]
    exact le_qvecMax (getD_mem rv k0 0 (by rw [rvlen]; exact hk0))
  have hMmem : qvecMax rv ∈ rv :=
    qvecMax_mem rv (List.length_pos.mp (by rw [rvlen]; omega))
  obtain ⟨k, hk, hkv⟩ := (mem_iff_getD rv (qvecMax rv) 0).mp hMmem
  constructor
  · refine List.ne_nil_of_mem ((mem_which_map 0).mpr ⟨hk, ?_⟩)
    rw [hkv]
    exact (qeq_iff _ _).mpr rfl
  · intro j hj
    obtain ⟨hjrv, hg⟩ := (mem_which_map 0).mp hj
    have hjlen : j < radii.length := by rw [← rvlen]; exact hjrv
    have hrvj : rv.getD j 0 = qvecMax rv := (qeq_iff _ _).mp hg
    refine ⟨hjlen, ?_⟩
    by_contra hnc
    have hfalse : incl.getD j false = false := by
      cases h : incl.getD j false with
      | false => rfl
      | true => exact absurd h hnc
    rw [rvEntry j, if_pos hjlen, hfalse] at hrvj
    simp only [Bool.false_eq_true, if_false] at hrvj
    rw [← hrvj] at hMpos
    exact absurd hMpos (lt_irrefl 0)

theorem flag_smallest_facts (radii : List ℚ) (incl : List Bool)
    (hpos : ∀ i, i < radii.length → 0 < radii.getD i 0)
    (hlt : ∀ i, i < radii.length → radii.getD i 0 < DBL_MAX)
    (k0 : ℕ) (hk0 : k0 < radii.length) (hinc0 : incl.getD k0 false = true) :
    which (flag_smallest radii incl) ≠ [] ∧
    ∀ j ∈ which (flag_smallest radii incl),
      j < radii.length ∧ incl.getD j false = true := by
  unfold flag_smallest
  set rv := (List.range radii.length).map
    (fun i => if incl.getD i false then radii.getD i 0 else DBL_MAX) with hrv
  have rvlen : rv.length = radii.length := by
    rw [hrv, List.length_map, List.length_range]
  have rvEntry : ∀ i, rv.getD i 0 =
      if i < radii.length then
        (if incl.getD i false then radii.getD i 0 else DBL_MAX)
      else 0 := by
    intro i
    rw [hrv, getD_map_range]
  have hentry0 : rv.getD k0 0 = radii.getD k0 0 := by
    rw [rvEntry k0, if_pos hk0, if_pos hinc0]
  have hmlt : qvecMin rv < DBL_MAX := by
    refine lt_of_le_of_lt ?_ (hlt k0 hk0)
    rw [← hentry0]
    exact qvecMin_le (getD_mem rv k0 0 (by rw [rvlen]; exact hk0))
  have hmmem : qvecMin rv ∈ rv :=
    qvecMin_mem rv (List.length_pos.mp (by rw [rvlen]; omega))
  obtain ⟨k, hk, hkv⟩ := (mem_iff_getD rv (qvecMin rv) 0).mp hmmem
  constructor
  · refine List.ne_nil_of_mem ((mem_which_map 0).mpr ⟨hk, ?_⟩)
    rw [hkv]
    exact (qeq_iff _ _).mpr rfl
  · intro j hj
    obtain ⟨hjrv, hg⟩ := (mem_which_map 0).mp hj
    have hjlen : j < radii.length := by rw [← rvlen]; exact hjrv
    have hrvj : rv.getD j 0 = qvecMin rv := (qeq_iff _ _).mp hg
    refine ⟨hjlen, ?_⟩
    by_contra hnc
    have hfalse : incl.getD j false = false := by
      cases h : incl.getD j false with
      | false => rfl
      | true => exact absurd h hnc
    rw [rvEntry j, if_pos hjlen, hfalse] at hrvj
    simp only [Bool.false_eq_true, if_false] at hrvj
    rw [← hrvj] at hmlt
    exact absurd hmlt (lt_irrefl _)

theorem computeB_facts (cs : List SCircle) (sx : List ℤ) (cnts : List ℤ)
    (ordering : ℕ)
    (hrad : ∀ c ∈ cs, 0 < c.radius ∧ c.radius < DBL_MAX)
    (hord : ordering < 5)
    (hclen : cnts.length = cs.length)
    (hP3 : ∀ i, i < cs.length → sx.getD i 2 = Candidate → 1 ≤ cnts.getD i 0)
    (hP4 : ∀ i, i < cs.length → ¬ sx.getD i 2 = Candidate → cnts.getD i 0 = 0)
    (i0 : ℕ) (hi0 : i0 < cs.length) (hc0 : sx.getD i0 2 = Candidate) :
    which (computeB (cs.map SCircle.radius) cnts ordering) ≠ [] ∧
    ∀ j ∈ which (computeB (cs.map SCircle.radius) cnts ordering),
      j < cs.length ∧ sx.getD j 2 = Candidate := by
  have hi0c : i0 < cnts.length := by rw [hclen]; exact hi0
  have hcnt0 : 1 ≤ cnts.getD i0 0 := hP3 i0 hi0 hc0
  have hmem0 : cnts.getD i0 0 ∈ cnts := getD_mem cnts i0 0 hi0c
  have hrlen : (cs.map SCircle.radius).length = cs.length := List.length_map cs _
  have hrpos : ∀ i, i < (cs.map SCircle.radius).length →
      0 < (cs.map SCircle.radius).getD i 0 := by
    intro i hi
    rw [hrlen] at hi
    rw [getD_map_lt SCircle.radius cs i hi 0 ⟨0, 0, 0⟩]
    exact (hrad _ (getD_mem cs i ⟨0, 0, 0⟩ hi)).1
  have hrltm : ∀ i, i < (cs.map SCircle.radius).length →
      (cs.map SCircle.radius).getD i 0 < DBL_MAX := by
    intro i hi
    rw [hrlen] at hi
    rw [getD_map_lt SCircle.radius cs i hi 0 ⟨0, 0, 0⟩]
    exact (hrad _ (getD_mem cs i ⟨0, 0, 0⟩ hi)).2
  have hinc : ∀ i, i < cs.length →
      (cnts.map fun c => decide (0 < c)).getD i false = decide (0 < cnts.getD i 0) := by
    intro i hi
    exact getD_map_lt (fun c => decide (0 < c)) cnts i (by rw [hclen]; exact hi) false 0
  have hcand_of_pos : ∀ j, j < cs.length → 0 < cnts.getD j 0 →
      sx.getD j 2 = Candidate := by
    intro j hj hpos
    by_contra hnc
    rw [hP4 j hj hnc] at hpos
    exact absurd hpos (lt_irrefl 0)
  interval_cases ordering
  · simp only [computeB]
    have hM1 : 1 ≤ vecMax cnts := le_trans hcnt0 (le_vecMax hmem0)
    obtain ⟨k, hk, hkv⟩ :=
      (mem_iff_getD cnts (vecMax cnts) 0).mp
        (vecMax_mem cnts (List.ne_nil_of_mem hmem0))
    constructor
    · refine List.ne_nil_of_mem ((mem_which_map 0).mpr ⟨hk, ?_⟩)
      rw [hkv]
      exact decide_eq_true rfl
    · intro j hj
      obtain ⟨hjc, hg⟩ := (mem_which_map 0).mp hj
      have hjlen : j < cs.length := by rw [← hclen]; exact hjc
      have hval : cnts.getD j 0 = vecMax cnts := of_decide_eq_true hg
      exact ⟨hjlen, hcand_of_pos j hjlen (by omega)⟩
  · simp only [computeB]
    have hmemx : cnts.getD i0 0 ∈ cnts.filter fun c => decide (0 < c) :=
      List.mem_filter.mpr ⟨hmem0, decide_eq_true (by omega)⟩
    have hvmem := vecMin_mem _ (List.ne_nil_of_mem hmemx)
    obtain ⟨hvc, hvp⟩ := List.mem_filter.mp hvmem
    have hvpos : 0 < vecMin (cnts.filter fun c => decide (0 < c)) :=
      of_decide_eq_true hvp
    obtain ⟨k, hk, hkv⟩ := (mem_iff_getD cnts _ 0).mp hvc
    constructor
    · refine List.ne_nil_of_mem ((mem_which_map 0).mpr ⟨hk, ?_⟩)
      rw [hkv]
      exact decide_eq_true rfl
    · intro j hj
      obtain ⟨hjc, hg⟩ := (mem_which_map 0).mp hj
      have hjlen : j < cs.length := by rw [← hclen]; exact hjc
      have hval : cnts.getD j 0 = vecMin (cnts.filter fun c => decide (0 < c)) :=
        of_decide_eq_true hg
      exact ⟨hjlen, hcand_of_pos j hjlen (by omega)⟩
  · simp only [computeB]
    have hk0 : i0 < (cs.map SCircle.radius).length := by rw [hrlen]; exact hi0
    have hinc0 : (cnts.map fun c => decide (0 < c)).getD i0 false = true := by
      rw [hinc i0 hi0]
      exact decide_eq_true (by omega)
    obtain ⟨hne, hmem⟩ := flag_largest_facts (cs.map SCircle.radius)
      (cnts.map fun c => decide (0 < c)) hrpos i0 hk0 hinc0
    refine ⟨hne, ?_⟩
    intro j hj
    obtain ⟨hjr, hjinc⟩ := hmem j hj
    have hjlen : j < cs.length := by rw [← hrlen]; exact hjr
    rw [hinc j hjlen] at hjinc
    exact ⟨hjlen, hcand_of_pos j hjlen (of_decide_eq_true hjinc)⟩
  · simp only [computeB]
    have hk0 : i0 < (cs.map SCircle.radius).length := by rw [hrlen]; exact hi0
    have hinc0 : (cnts.map fun c => decide (0 < c)).getD i0 false = true := by
      rw [hinc i0 hi0]
      exact decide_eq_true (by omega)
    obtain ⟨hne, hmem⟩ := flag_smallest_facts (cs.map SCircle.radius)
      (cnts.map fun c => decide (0 < c)) hrpos hrltm i0 hk0 hinc0
    refine ⟨hne, ?_⟩
    intro j hj
    obtain ⟨hjr, hjinc⟩ := hmem j hj
    have hjlen : j < cs.length := by rw [← hrlen]; exact hjr
    rw [hinc j hjlen] at hjinc
    exact ⟨hjlen, hcand_of_pos j hjlen (of_decide_eq_true hjinc)⟩
  · simp only [computeB]
    constructor
    · refine List.ne_nil_of_mem ((mem_which_map 0).mpr ⟨hi0c, ?_⟩)
      exact decide_eq_true (by omega)
    · intro j hj
      obtain ⟨hjc, hg⟩ := (mem_which_map 0).mp hj
      have hjlen : j < cs.length := by rw [← hclen]; exact hjc
      exact ⟨hjlen, hcand_of_pos j hjlen (of_decide_eq_true hg)⟩

theorem countP_le_of {p q : ℕ → Bool} :
    ∀ (l : List ℕ), (∀ j ∈ l, p j = true → q j = true) → l.countP p ≤ l.countP q := by
  intro l
  induction l with
  | nil => intro _; exact le_refl _
  | cons a t ih =>
      intro h
      rw [List.countP_cons, List.countP_cons]
      have ht := ih (fun j hj => h j (List.mem_cons_of_mem a hj))
      cases hpa : p a with
      | false => simp only [Bool.false_eq_true, if_false]; omega
      | true =>
          rw [h a (List.mem_cons_self a t) hpa]
          simp only [if_pos]
          omega

theorem countP_pos_exists {p : ℕ → Bool} :
    ∀ (l : List ℕ), 0 < l.countP p → ∃ a, a ∈ l ∧ p a = true := by
  intro l
  induction l with
  | nil => intro h; exact absurd h (by simp)
  | cons a t ih =>
      intro h
      cases hpa : p a with
      | true => exact ⟨a, List.mem_cons_self a t, hpa⟩
      | false =>
          rw [List.countP_cons, hpa] at h
          simp only [Bool.false_eq_true, if_false, Nat.add_zero] at h
          obtain ⟨b, hb, hpb⟩ := ih h
          exact ⟨b, List.mem_cons_of_mem a hb, hpb⟩

/-- The loop invariant of `select_circles`: well-formed states, the
selected/rejected neighbour invariant, and `ndone` consistent with the
number of remaining candidates. -/
def runWF (cs : List SCircle) (tol : ℚ) (s : SelState) : Prop :=
  statesWF cs.length s.states ∧
  noSelNbr (buildNeighbours cs tol) s.states ∧
  s.ndone + candCount cs.length s.states = cs.length

theorem oneIteration_full (cs : List SCircle) (tol : ℚ) (ordering : ℕ) (u : ℕ → ℚ)
    (hrad : ∀ c ∈ cs, 0 < c.radius ∧ c.radius < DBL_MAX)
    (hord : ordering < 5)
    (hu : ∀ k, 0 ≤ u k ∧ u k < 1)
    (s : SelState) (hs : runWF cs tol s) :
    runWF cs tol (oneIteration cs tol ordering u s) ∧
    (s.ndone < cs.length →
      (∀ i, (oneIteration cs tol ordering u s).states.getD i 2 = s.states.getD i 2 ∨
        (s.states.getD i 2 = Candidate ∧
          ((oneIteration cs tol ordering u s).states.getD i 2 = Selected ∨
           (oneIteration cs tol ordering u s).states.getD i 2 = Rejected))) ∧
      rejCount cs.length (oneIteration cs tol ordering u s).states ≤
        rejCount cs.length s.states + 1 ∧
      candCount cs.length (oneIteration cs tol ordering u s).states <
        candCount cs.length s.states) := by
  obtain ⟨hwf, hinv, hnd⟩ := hs
  obtain ⟨Fwf, Finv, Flen, F2, F3, F4, F8⟩ :=
    selectPhase_facts cs tol s.states s.ndone hwf hinv
  set ph := selectPhase (buildNeighbours cs tol) cs.length s.states s.ndone with hph
  have hmono : candCount cs.length ph.1 ≤ candCount cs.length s.states := by
    unfold candCount
    refine countP_le_of _ ?_
    intro k _ hk
    rcases F2 k with he | ⟨hsC, hSel⟩
    · rw [he] at hk
      exact hk
    · rw [hSel] at hk
      exact absurd (of_decide_eq_true hk) (by decide)
  have hrejeq : rejCount cs.length ph.1 = rejCount cs.length s.states := by
    unfold rejCount
    refine countP_eq_of _ ?_
    intro k _
    rcases F2 k with he | ⟨hsC, hSel⟩
    · rw [he]
    · rw [hsC, hSel]
      decide
  by_cases hbr : ph.2.2 < cs.length
  · have hcand' : 1 ≤ candCount cs.length ph.1 := by omega
    have hpos0 : 0 < (List.range cs.length).countP
        fun k => decide (ph.1.getD k 2 = Candidate) := by
      unfold candCount at hcand'
      omega
    obtain ⟨i0, hi0r, hc0d⟩ := countP_pos_exists (List.range cs.length) hpos0
    have hi0 : i0 < cs.length := List.mem_range.mp hi0r
    have hc0 : ph.1.getD i0 2 = Candidate := of_decide_eq_true hc0d
    obtain ⟨hBne, hBmem⟩ :=
      computeB_facts cs ph.1 ph.2.1 ordering hrad hord Flen F3 F4 i0 hi0 hc0
    set rem := sample_one_of
      (which (computeB (cs.map SCircle.radius) ph.2.1 ordering)) u s.rpos with hrem
    have hrmem : rem.1 ∈ which (computeB (cs.map SCircle.radius) ph.2.1 ordering) := by
      rw [hrem]
      exact sample_one_of_mem _ u s.rpos hBne (hu s.rpos).1 (hu s.rpos).2
    obtain ⟨hrlt, hrcand⟩ := hBmem rem.1 hrmem
    have hrlen' : rem.1 < ph.1.length := by rw [Fwf.1]; exact hrlt
    have hres : oneIteration cs tol ordering u s =
        ⟨ph.1.set rem.1 Rejected, ph.2.2 + 1, rem.2⟩ := by
      unfold oneIteration
      dsimp only
      rw [← hph, ← hrem, if_pos hbr]
    rw [hres]
    dsimp only
    have hccset : candCount cs.length (ph.1.set rem.1 Rejected) + 1 =
        candCount cs.length ph.1 :=
      candCount_set cs.length ph.1 rem.1 Rejected hrlt hrlen' hrcand (by decide)
    obtain ⟨hwf', hinv'⟩ := setRejected_invariant cs tol ph.1 rem.1 Fwf Finv
    refine ⟨⟨hwf', hinv', ?_⟩, ?_⟩
    · show ph.2.2 + 1 + candCount cs.length (ph.1.set rem.1 Rejected) = cs.length
      omega
    intro _
    refine ⟨?_, ?_, ?_⟩
    · intro i
      by_cases hir : i = rem.1
      · subst hir
        rw [getD_set_self _ _ _ _ hrlen']
        rcases F2 rem.1 with he | ⟨hsC, hSel⟩
        · rw [he] at hrcand
          exact Or.inr ⟨hrcand, Or.inr rfl⟩
        · rw [hSel] at hrcand
          exact absurd hrcand (by decide)
      · rw [getD_set_ne _ _ _ _ _ (fun h => hir h.symm)]
        rcases F2 i with he | ⟨hsC, hSel⟩
        · exact Or.inl he
        · exact Or.inr ⟨hsC, Or.inl hSel⟩
    · have hset : rejCount cs.length (ph.1.set rem.1 Rejected) =
          rejCount cs.length ph.1 + 1 :=
        rejCount_set cs.length ph.1 rem.1 hrlt hrlen' (by rw [hrcand]; decide)
      omega
    · omega
  · have hres : oneIteration cs tol ordering u s = ⟨ph.1, ph.2.2, s.rpos⟩ := by
      unfold oneIteration
      dsimp only
      rw [← hph, if_neg hbr]
    rw [hres]
    dsimp only
    have hA0 : candCount cs.length ph.1 = 0 ∧ ph.2.2 = cs.length := by omega
    refine ⟨⟨Fwf, Finv, ?_⟩, ?_⟩
    · show ph.2.2 + candCount cs.length ph.1 = cs.length
      omega
    intro hlt
    have hcs : 1 ≤ candCount cs.length s.states := by omega
    refine ⟨?_, by omega, by omega⟩
    intro i
    rcases F2 i with he | ⟨hsC, hSel⟩
    · exact Or.inl he
    · exact Or.inr ⟨hsC, Or.inl hSel⟩

theorem ndone_growth (cs : List SCircle) (tol : ℚ) (ordering : ℕ) (u : ℕ → ℚ)
    (hrad : ∀ c ∈ cs, 0 < c.radius ∧ c.radius < DBL_MAX)
    (hord : ordering < 5)
    (hu : ∀ k, 0 ≤ u k ∧ u k < 1)
    (s : SelState) (hs : runWF cs tol s) (hlt : s.ndone < cs.length) :
    s.ndone + 1 ≤ (oneIteration cs tol ordering u s).ndone := by
  obtain ⟨h1, h2⟩ := oneIteration_full cs tol ordering u hrad hord hu s hs
  obtain ⟨_, _, hcand⟩ := h2 hlt
  have ha := h1.2.2
  have hb := hs.2.2
  omega

theorem selectLoop_done (cs : List SCircle) (tol : ℚ) (ordering : ℕ) (u : ℕ → ℚ) :
    ∀ (fuel : ℕ) (s : SelState), ¬ s.ndone < cs.length →
      selectLoop cs tol ordering u fuel s = s := by
  intro fuel
  induction fuel with
  | zero => intro s _; rfl
  | succ f _ => intro s h; rw [selectLoop, if_neg h]

theorem selectLoop_stable (cs : List SCircle) (tol : ℚ) (ordering : ℕ) (u : ℕ → ℚ)
    (hrad : ∀ c ∈ cs, 0 < c.radius ∧ c.radius < DBL_MAX)
    (hord : ordering < 5)
    (hu : ∀ k, 0 ≤ u k ∧ u k < 1) :
    ∀ (fuel : ℕ) (s : SelState), runWF cs tol s →
      cs.length ≤ s.ndone + fuel →
      ∀ k, selectLoop cs tol ordering u (fuel + k) s =
        selectLoop cs tol ordering u fuel s := by
  intro fuel
  induction fuel with
  | zero =>
      intro s hs hb k
      have hnd : ¬ s.ndone < cs.length := by omega
      rw [Nat.zero_add]
      exact selectLoop_done cs tol ordering u k s hnd
  | succ f ih =>
      intro s hs hb k
      by_cases hlt : s.ndone < cs.length
      · have hstep : selectLoop cs tol ordering u (f + 1 + k) s =
            selectLoop cs tol ordering u (f + k) (oneIteration cs tol ordering u s) := by
          rw [show f + 1 + k = (f + k) + 1 from by omega]
          rw [selectLoop, if_pos hlt]
        rw [hstep, selectLoop, if_pos hlt]
        have hs' := (oneIteration_full cs tol ordering u hrad hord hu s hs).1
        have hgrow := ndone_growth cs tol ordering u hrad hord hu s hs hlt
        exact ih (oneIteration cs tol ordering u s) hs' (by omega) k
      · rw [selectLoop_done cs tol ordering u (f + 1 + k) s hlt,
          selectLoop_done cs tol ordering u (f + 1) s hlt]

theorem runState_wf (cs : List SCircle) (tol : ℚ) (ordering : ℕ) (u : ℕ → ℚ)
    (hrad : ∀ c ∈ cs, 0 < c.radius ∧ c.radius < DBL_MAX)
    (hord : ordering < 5)
    (hu : ∀ k, 0 ≤ u k ∧ u k < 1) :
    ∀ m, runWF cs tol (runState cs tol ordering u m) := by
  intro m
  induction m with
  | zero =>
      unfold runState
      rw [Function.iterate_zero_apply]
      obtain ⟨h1, h2⟩ := init_invariant cs tol
      refine ⟨h1, h2, ?_⟩
      show 0 + candCount cs.length (List.replicate cs.length Candidate) = cs.length
      rw [Nat.zero_add]
      unfold candCount
      have hall : ∀ a ∈ List.range cs.length,
          (fun k => decide ((List.replicate cs.length Candidate).getD k 2 = Candidate)) a =
          (fun _ => true) a := by
        intro a ha
        exact decide_eq_true (getD_replicate _ _ _ _ (List.mem_range.mp ha))
      rw [countP_eq_of _ hall, List.countP_true, List.length_range]
  | succ m ih =>
      unfold runState at ih ⊢
      rw [Function.iterate_succ_apply']
      exact (oneIteration_full cs tol ordering u hrad hord hu _ ih).1


/-- The counterexample input to the strict-decrease clause of the selector
invariant: three circles of radius `DBL_MAX` (a positive double), the third
at distance 4e308 so it never overlaps the first two. -/
def selCexCircles : List SCircle :=
  [⟨0, 0, DBL_MAX⟩, ⟨0, 0, DBL_MAX⟩,
   ⟨400000000000000000000000000000000000000000000000000000000000000000000000000000000000000000000000000000000000000000000000000000000000000000000000000000000000000000000000000000000000000000000000000000000000000000000000000000000000000000000000000000000000000000000000000000000000000000000000000000000000000000000, 0, DBL_MAX⟩]

/-- C5: per-iteration behaviour and termination of `select_circles`. For
positive radii below `DBL_MAX`, a valid ordering code and uniform draws in
`[0,1)`, every executed iteration only moves circles out of the Candidate
state (each circle either keeps its state or moves from Candidate to
Selected or Rejected), rejects at most one circle, strictly decreases the
Candidate count, and the loop is exhausted after at most `N = cs.length`
iterations (extra fuel beyond `N` never changes the result). The
restriction to radii strictly below `DBL_MAX` is necessary: the claim as
stated (any positive radii) fails, see the counterexample. -/
theorem selector_iteration_spec (cs : List SCircle) (tol : ℚ) (ordering : ℕ)
    (u : ℕ → ℚ)
    (hrad : ∀ c ∈ cs, 0 < c.radius ∧ c.radius < DBL_MAX)
    (hord : ordering < 5)
    (hu : ∀ k, 0 ≤ u k ∧ u k < 1)
    (m : ℕ) (hm : (runState cs tol ordering u m).ndone < cs.length) :
    (∀ i, (runState cs tol ordering u (m + 1)).states.getD i 2 =
        (runState cs tol ordering u m).states.getD i 2 ∨
      ((runState cs tol ordering u m).states.getD i 2 = Candidate ∧
        ((runState cs tol ordering u (m + 1)).states.getD i 2 = Selected ∨
         (runState cs tol ordering u (m + 1)).states.getD i 2 = Rejected))) ∧
    rejCount cs.length (runState cs tol ordering u (m + 1)).states ≤
      rejCount cs.length (runState cs tol ordering u m).states + 1 ∧
    candCount cs.length (runState cs tol ordering u (m + 1)).states <
      candCount cs.length (runState cs tol ordering u m).states ∧
    (∀ k, selectLoop cs tol ordering u (cs.length + k)
        ⟨List.replicate cs.length Candidate, 0, 0⟩ =
      selectLoop cs tol ordering u cs.length
        ⟨List.replicate cs.length Candidate, 0, 0⟩) := by
  have hw := runState_wf cs tol ordering u hrad hord hu m
  have hstep := oneIteration_full cs tol ordering u hrad hord hu
    (runState cs tol ordering u m) hw
  obtain ⟨htr, hrej, hcand⟩ := hstep.2 hm
  have hsucc : runState cs tol ordering u (m + 1) =
      oneIteration cs tol ordering u (runState cs tol ordering u m) := by
    unfold runState
    rw [Function.iterate_succ_apply']
  rw [hsucc]
  refine ⟨htr, hrej, hcand, ?_⟩
  intro k
  have h0 := runState_wf cs tol ordering u hrad hord hu 0
  unfold runState at h0
  rw [Function.iterate_zero_apply] at h0
  exact selectLoop_stable cs tol ordering u hrad hord hu cs.length
    ⟨List.replicate cs.length Candidate, 0, 0⟩ h0 (by omega) k

/-- Witness for C5 at a concrete input: two unit circles far apart,
ordering code 0 (`maxov`), degenerate draws; the first iteration runs and
the Candidate count drops. -/
theorem selector_iteration_spec_witness :
    (runState [⟨0, 0, 1⟩, ⟨10, 10, 1⟩] 1 0 (fun _ => 0) 0).ndone <
      ([⟨0, 0, 1⟩, ⟨10, 10, 1⟩] : List SCircle).length ∧
    candCount 2 (runState [⟨0, 0, 1⟩, ⟨10, 10, 1⟩] 1 0 (fun _ => 0) 1).states <
      candCount 2 (runState [⟨0, 0, 1⟩, ⟨10, 10, 1⟩] 1 0 (fun _ => 0) 0).states := by
  refine ⟨by with_unfolding_all decide, ?_⟩
  exact (selector_iteration_spec [⟨0, 0, 1⟩, ⟨10, 10, 1⟩] 1 0 (fun _ => 0)
    (by with_unfolding_all decide) (by decide)
    (fun k => ⟨le_refl 0, by norm_num⟩)
    0 (by with_unfolding_all decide)).2.2.1

/-- Counterexample to C5 as claimed: all radii are positive (they equal
`DBL_MAX`, an admissible double) and the ordering keyword is the valid
`"smallest"` (code 3), yet the second iteration executes (`ndone = 2 < 3`
after the first) without decreasing the Candidate count, which stays at 2:
the `flag_smallest` fill value `DBL_MAX` ties with the true radii, so the
excluded far circle is rejected a second time instead of a Candidate. -/
theorem selector_strict_decrease_counterexample :
    OrderingLabels.findIdx? (fun s => s == "smallest") = some 3 ∧
    (∀ c ∈ selCexCircles, 0 < c.radius) ∧
    (runState selCexCircles 1 3 (fun _ => 5 / 6) 1).ndone < selCexCircles.length ∧
    candCount selCexCircles.length
        (runState selCexCircles 1 3 (fun _ => 5 / 6) 2).states =
      candCount selCexCircles.length
        (runState selCexCircles 1 3 (fun _ => 5 / 6) 1).states ∧
    candCount selCexCircles.length
        (runState selCexCircles 1 3 (fun _ => 5 / 6) 1).states = 2 := by
  with_unfolding_all decide

/-- Witness for C1 at a concrete input: two far-apart unit circles, both
kept by the selector, and indeed not adjacent. -/
theorem select_non_overlapping_independent_witness :
    select_non_overlapping [⟨0, 0, 1⟩, ⟨10, 10, 1⟩] 1 "maxov" (fun _ => 0) =
      some [true, true] ∧
    ¬ (((sget [⟨0, 0, 1⟩, ⟨10, 10, 1⟩] 0).x - (sget [⟨0, 0, 1⟩, ⟨10, 10, 1⟩] 1).x) *
         ((sget [⟨0, 0, 1⟩, ⟨10, 10, 1⟩] 0).x - (sget [⟨0, 0, 1⟩, ⟨10, 10, 1⟩] 1).x) +
       ((sget [⟨0, 0, 1⟩, ⟨10, 10, 1⟩] 0).y - (sget [⟨0, 0, 1⟩, ⟨10, 10, 1⟩] 1).y) *
         ((sget [⟨0, 0, 1⟩, ⟨10, 10, 1⟩] 0).y - (sget [⟨0, 0, 1⟩, ⟨10, 10, 1⟩] 1).y) <
       ((sget [⟨0, 0, 1⟩, ⟨10, 10, 1⟩] 0).radius + (sget [⟨0, 0, 1⟩, ⟨10, 10, 1⟩] 1).radius) *
         ((sget [⟨0, 0, 1⟩, ⟨10, 10, 1⟩] 0).radius + (sget [⟨0, 0, 1⟩, ⟨10, 10, 1⟩] 1).radius) *
         1) := by
  refine ⟨by with_unfolding_all decide, ?_⟩
  exact select_non_overlapping_independent [⟨0, 0, 1⟩, ⟨10, 10, 1⟩] 1 "maxov"
    (fun _ => 0) [true, true] (by with_unfolding_all decide) 0 1 (by decide)
    (by with_unfolding_all decide) (by with_unfolding_all decide)

/- ================================================================
   pads_circle_pack.cpp — the Collins–Stephenson tangency packer.

   `std::map` values are modelled as association lists in ascending key
   order (the order `std::map` iterates in); `aset` is `operator[]=`
   (sorted insert-or-replace), `alookup`/`aget` are lookup with the
   map's `.at`/`operator[]` read (the `0` default of `aget` is exercised
   by the source only through `placements[k]`, whose `operator[]`
   value-initialises the entry to `(0,0)`).  Doubles are idealised as
   `ℝ`, `std::complex<double>` as `ℂ`, and the two unbounded recursions
   (the radius `while` loop and the `place` recursion) take explicit
   fuel, returning `none` when it runs out.
   ================================================================ -/

end SelectNO

namespace Pads

/-- `const double Tolerance = 1.0 + 1.0e-8`. -/
def Tolerance : ℝ := 1 + 1e-8

/-- Association-list lookup (`std::map::find`). -/
def alookup {V : Type} : List (ℤ × V) → ℤ → Option V
  | [], _ => none
  | (k', v) :: rest, k => if k' = k then some v else alookup rest k

/-- `std::map::count(k) > 0`. -/
def acontains {V : Type} (m : List (ℤ × V)) (k : ℤ) : Bool :=
  (alookup m k).isSome

/-- A map read defaulting to `0` (`.at` on a present key, `operator[]`'s
value-initialisation on an absent one). -/
def aget (m : List (ℤ × ℝ)) (k : ℤ) : ℝ := (alookup m k).getD 0

/-- `operator[]=`: replace the value at `k`, or insert it at its sorted
position (`std::map` keeps keys ascending). -/
def aset {V : Type} : List (ℤ × V) → ℤ → V → List (ℤ × V)
  | [], k, v => [(k, v)]
  | (k', v') :: rest, k, v =>
      if k < k' then (k, v) :: (k', v') :: rest
      else if k' = k then (k, v) :: rest
      else (k', v') :: aset rest k v

/-- `acxyz(rx, ry, rz)`: the tangency angle at a circle of radius `rx`,
with its two documented numerical fallbacks. -/
noncomputable def acxyz (rx ry rz : ℝ) : ℝ :=
  let denom := 2 * (rx + ry) * (rx + rz)
  if almostZero denom then Real.pi
  else
    let num := (rx + ry) ^ 2 + (rx + rz) ^ 2 - (ry + rz) ^ 2
    let term := num / denom
    if term < -1 ∨ 1 < term then Real.pi / 3
    else Real.arccos term

/-- `flower(radius, center, cycle)`: the angle sum around `center`. -/
noncomputable def flower (radii : List (ℤ × ℝ)) (center : ℤ)
    (cycle : List ℤ) : ℝ :=
  let nc := cycle.length
  let rc := aget radii center
  (List.range nc).foldl (fun sum i =>
    let j := if i + 1 = nc then 0 else i + 1
    sum + acxyz rc (aget radii (cycle.getD i 0)) (aget radii (cycle.getD j 0))) 0

/-- One `for` sweep of the radius iteration: every internal circle's
radius is updated in key order, and the largest ratio of change is
accumulated into `lastChange` (reset to `1.0` at sweep start). -/
noncomputable def radiusPass (internal : List (ℤ × List ℤ))
    (radii : List (ℤ × ℝ)) : List (ℤ × ℝ) × ℝ :=
  internal.foldl (fun acc q =>
    let k := q.1
    let cycle := q.2
    let cycleLen := cycle.length
    let theta := flower acc.1 k cycle
    let hat := aget acc.1 k / (1 / Real.sin (theta / (2 * cycleLen)) - 1)
    let newrad := hat * (1 / Real.sin (Real.pi / cycleLen) - 1)
    let kc := max (newrad / aget acc.1 k) (aget acc.1 k / newrad)
    (aset acc.1 k newrad, max acc.2 kc)) (radii, 1)

/-- The `while (lastChange > Tolerance)` radius loop with fuel (the
initial `lastChange = Tolerance + 1` makes the first test always true, so
the loop is sweep-then-test). -/
noncomputable def radiusLoop (internal : List (ℤ × List ℤ)) :
    ℕ → List (ℤ × ℝ) → Option (List (ℤ × ℝ))
  | 0, _ => none
  | fuel + 1, radii =>
      let pr := radiusPass internal radii
      if pr.2 > Tolerance then radiusLoop internal fuel pr.1
      else some pr.1

/-- The index sequence `ks` of `place`'s `for (int i = -nc; i < nc-1; i++)`
loop: `ks = i < 0 ? nc + i : i` walks `0..nc-1` and then `0..nc-2`. -/
def ksList (nc : ℕ) : List ℕ := List.range nc ++ List.range (nc - 1)

/-- The body of `place`'s loop over `ksList`, parameterised by the
recursive placer `f` (the `place` call one fuel level down). -/
noncomputable def placeFold (radii : List (ℤ × ℝ)) (centre : ℤ)
    (rcentre : ℝ) (cycle : List ℤ) (nc : ℕ)
    (f : List (ℤ × ℂ) → ℤ → Option (List (ℤ × ℂ))) :
    List ℕ → List (ℤ × ℂ) → Option (List (ℤ × ℂ))
  | [], pl => some pl
  | ks :: rest, pl =>
      let s := cycle.getD ks 0
      let rs := aget radii s
      let kt := if ks + 1 < nc then ks + 1 else 0
      let t := cycle.getD kt 0
      let rt := aget radii t
      if acontains pl s && !acontains pl t then
        let theta := acxyz rcentre rs rt
        let offset := ((alookup pl s).getD 0 - (alookup pl centre).getD 0) /
          ((rs + rcentre : ℝ) : ℂ)
        let offset' := offset * Complex.exp (-Complex.I * (theta : ℝ))
        let pl' := aset pl t ((alookup pl centre).getD 0 + offset' * ((rt + rcentre : ℝ) : ℂ))
        (f pl' t).bind (placeFold radii centre rcentre cycle nc f rest)
      else placeFold radii centre rcentre cycle nc f rest pl

/-- `place`: recursively walk the tangency cycles, placing each not-yet
placed circle from an already placed neighbour; fuel bounds the recursion
depth. -/
noncomputable def place (internal : List (ℤ × List ℤ)) (radii : List (ℤ × ℝ)) :
    ℕ → List (ℤ × ℂ) → ℤ → Option (List (ℤ × ℂ))
  | 0, _, _ => none
  | fuel + 1, pl, centre =>
      match alookup internal centre with
      | none => some pl
      | some cycle =>
          placeFold radii centre (aget radii centre) cycle cycle.length
            (place internal radii fuel) (ksList cycle.length) pl

/-- The output-building loop of `CirclePack`: one row per key of `radii`,
in key order, pairing the placement (`placements[k]`, defaulting to the
origin for never-placed ids) with the solved radius. -/
def packOutput (radii : List (ℤ × ℝ)) (pl : List (ℤ × ℂ)) :
    List (ℤ × (ℂ × ℝ)) :=
  radii.map fun p => (p.1, ((alookup pl p.1).getD 0, p.2))

/-- `CirclePack(internal, external)`: validation (positive external radii,
disjoint key sets), the radius iteration, seeding of the first two
placements, the recursive placement, and the output map.  `Except.error`
is `Rcpp::stop`; the `none` result is fuel exhaustion of the two modelled
loops (and the undefined `internal.begin()` dereference on an empty
internal map). -/
noncomputable def CirclePack (internal : List (ℤ × List ℤ))
    (external : List (ℤ × ℝ)) (fuel : ℕ) :
    Except String (Option (List (ℤ × (ℂ × ℝ)))) :=
  match external.find? (fun p => !(decide (gtZero p.2))) with
  | some _ => .error "external radii must be positive"
  | none =>
      match internal.find? (fun q => acontains external q.1) with
      | some q => .error ("ID found in both internal and external map keys: " ++ toString q.1)
      | none =>
          let radii0 := internal.foldl (fun m q => aset m q.1 (1 : ℝ)) external
          match radiusLoop internal fuel radii0 with
          | none => .ok none
          | some radii =>
              match internal with
              | [] => .ok none
              | (k1, cycle1) :: _ =>
                  let k2 := cycle1.getD 0 0
                  let pl0 := aset (aset ([] : List (ℤ × ℂ)) k1 0) k2
                    ((aget radii k1 + aget radii k2 : ℝ) : ℂ)
                  match place internal radii fuel pl0 k1 with
                  | none => .ok none
                  | some pl1 =>
                      match place internal radii fuel pl1 k2 with
                      | none => .ok none
                      | some pl2 => .ok (some (packOutput radii pl2))

end Pads

namespace Pads

/-- C7: `acxyz`'s numerical fallbacks, for all radii: an almost-zero
denominator `2(rx+ry)(rx+rz)` (i.e. `|denom| < 1e-5`) yields `π`; a cosine
argument outside `[-1, 1]` yields `π/3`; otherwise the result is `acos` of
that argument.  All three branches return a value — none raises an
error. -/
theorem acxyz_fallbacks (rx ry rz : ℝ) :
    (almostZero (2 * (rx + ry) * (rx + rz)) → acxyz rx ry rz = Real.pi) ∧
    (¬ almostZero (2 * (rx + ry) * (rx + rz)) →
      (((rx + ry) ^ 2 + (rx + rz) ^ 2 - (ry + rz) ^ 2) /
            (2 * (rx + ry) * (rx + rz)) < -1 ∨
        1 < ((rx + ry) ^ 2 + (rx + rz) ^ 2 - (ry + rz) ^ 2) /
            (2 * (rx + ry) * (rx + rz)) →
        acxyz rx ry rz = Real.pi / 3) ∧
      (¬ (((rx + ry) ^ 2 + (rx + rz) ^ 2 - (ry + rz) ^ 2) /
            (2 * (rx + ry) * (rx + rz)) < -1 ∨
          1 < ((rx + ry) ^ 2 + (rx + rz) ^ 2 - (ry + rz) ^ 2) /
            (2 * (rx + ry) * (rx + rz))) →
        acxyz rx ry rz = Real.arccos
          (((rx + ry) ^ 2 + (rx + rz) ^ 2 - (ry + rz) ^ 2) /
            (2 * (rx + ry) * (rx + rz))))) := by
  refine ⟨?_, fun hden => ⟨?_, ?_⟩⟩
  · intro h
    unfold acxyz
    rw [if_pos h]
  · intro hout
    unfold acxyz
    rw [if_neg (by assumption)]
    dsimp only
    rw [if_pos hout]
  · intro hin
    unfold acxyz
    rw [if_neg (by assumption)]
    dsimp only
    rw [if_neg hin]

/-- C4: `CirclePack` input validation.  If any external radius fails
`gtZero` (i.e. is below the `1e-5` tolerance), or any id is a key of both
the internal and the external map, the function raises `Rcpp::stop` with a
message — modelled as `Except.error msg` — and produces no packing
result. -/
theorem circlePack_validation (internal : List (ℤ × List ℤ))
    (external : List (ℤ × ℝ)) (fuel : ℕ)
    (hbad : (∃ p ∈ external, ¬ gtZero p.2) ∨
      (∃ q ∈ internal, acontains external q.1 = true)) :
    ∃ msg, CirclePack internal external fuel = Except.error msg := by
  unfold CirclePack
  rcases hf : external.find? (fun p => !(decide (gtZero p.2))) with _ | p
  · rw [hf]
    have hall := List.find?_eq_none.mp hf
    rcases hg : internal.find? (fun q => acontains external q.1) with _ | q
    · exfalso
      have hall2 := List.find?_eq_none.mp hg
      rcases hbad with ⟨p, hp, hbadp⟩ | ⟨q, hq, hbadq⟩
      · have := hall p hp
        simp only [Bool.not_eq_true', decide_eq_false_iff_not, not_not] at this
        exact hbadp this
      · exact hall2 q hq hbadq
    · rw [hg]
      exact ⟨_, rfl⟩
  · rw [hf]
    exact ⟨_, rfl⟩

/-- Witness for C4 at a concrete input: the external map carries a
negative radius (and the collision arm is also exercised by the id `2`
present in both maps is not needed — one bad radius suffices). -/
theorem circlePack_validation_witness :
    (∃ p ∈ ([(1, -1)] : List (ℤ × ℝ)), ¬ gtZero p.2) ∧
    ∃ msg, CirclePack [(2, [3])] [(1, -1)] 1 = Except.error msg := by
  have hp : ∃ p ∈ ([(1, -1)] : List (ℤ × ℝ)), ¬ gtZero p.2 := by
    refine ⟨(1, -1), List.mem_singleton.mpr rfl, ?_⟩
    intro hg
    have := gtZero_iff (-1) |>.mp hg
    norm_num [TOL] at this
  exact ⟨hp, circlePack_validation [(2, [3])] [(1, -1)] 1 (Or.inl hp)⟩

theorem alookup_aset_self {V : Type} (m : List (ℤ × V)) (k : ℤ) (v : V) :
    alookup (aset m k v) k = some v := by
  induction m with
  | nil => simp [aset, alookup]
  | cons p rest ih =>
      obtain ⟨k', v'⟩ := p
      unfold aset
      by_cases h1 : k < k'
      · rw [if_pos h1]
        unfold alookup
        rw [if_pos rfl]
      · rw [if_neg h1]
        by_cases h2 : k' = k
        · rw [if_pos h2]
          unfold alookup
          rw [if_pos rfl]
        · rw [if_neg h2]
          unfold alookup
          rw [if_neg h2]
          exact ih

theorem alookup_aset_ne {V : Type} (m : List (ℤ × V)) (k : ℤ) (v : V) (k' : ℤ)
    (h : k ≠ k') : alookup (aset m k v) k' = alookup m k' := by
  induction m with
  | nil =>
      show alookup [(k, v)] k' = alookup [] k'
      show (if k = k' then some v else alookup [] k') = alookup [] k'
      rw [if_neg h]
  | cons p rest ih =>
      obtain ⟨a, b⟩ := p
      unfold aset
      by_cases h1 : k < a
      · rw [if_pos h1]
        show (if k = k' then some v else alookup ((a, b) :: rest) k') =
          alookup ((a, b) :: rest) k'
        rw [if_neg h]
      · rw [if_neg h1]
        by_cases h2 : a = k
        · rw [if_pos h2]
          show (if k = k' then some v else alookup rest k') =
            alookup ((a, b) :: rest) k'
          rw [if_neg h]
          show alookup rest k' = if a = k' then some b else alookup rest k'
          rw [if_neg (fun hh : a = k' => h (h2 ▸ hh))]
        · rw [if_neg h2]
          show (if a = k' then some b else alookup (aset rest k v) k') =
            (if a = k' then some b else alookup rest k')
          by_cases h3 : a = k'
          · rw [if_pos h3, if_pos h3]
          · rw [if_neg h3, if_neg h3]
            exact ih

theorem acontains_iff {V : Type} (m : List (ℤ × V)) (id : ℤ) :
    acontains m id = true ↔ ∃ v, alookup m id = some v := by
  unfold acontains
  exact Option.isSome_iff_exists

theorem acontains_aset_self {V : Type} (m : List (ℤ × V)) (k : ℤ) (v : V) :
    acontains (aset m k v) k = true := by
  unfold acontains
  rw [alookup_aset_self]
  rfl

theorem acontains_aset_of {V : Type} (m : List (ℤ × V)) (k : ℤ) (v : V) (k' : ℤ)
    (h : acontains m k' = true) : acontains (aset m k v) k' = true := by
  by_cases hk : k = k'
  · subst hk
    exact acontains_aset_self m k v
  · unfold acontains at h ⊢
    rw [alookup_aset_ne m k v k' hk]
    exact h

theorem acontains_of_mem {V : Type} (m : List (ℤ × V)) (p : ℤ × V) (hp : p ∈ m) :
    acontains m p.1 = true := by
  induction m with
  | nil => exact absurd hp (List.not_mem_nil p)
  | cons a rest ih =>
      obtain ⟨k, v⟩ := a
      unfold acontains alookup
      by_cases hk : k = p.1
      · rw [if_pos hk]
        rfl
      · rw [if_neg hk]
        rcases List.mem_cons.mp hp with rfl | hmem
        · exact absurd rfl hk
        · exact ih hmem

theorem acontains_foldl_aset (l : List (ℤ × List ℤ)) :
    ∀ (m : List (ℤ × ℝ)) (id : ℤ),
      acontains m id = true ∨ (∃ q ∈ l, q.1 = id) →
      acontains (l.foldl (fun m q => aset m q.1 (1 : ℝ)) m) id = true := by
  induction l with
  | nil =>
      intro m id h
      rcases h with h | ⟨q, hq, _⟩
      · exact h
      · exact absurd hq (List.not_mem_nil q)
  | cons a t ih =>
      intro m id h
      rw [List.foldl_cons]
      apply ih
      rcases h with hm | ⟨q, hq, hkey⟩
      · exact Or.inl (acontains_aset_of _ _ _ _ hm)
      · rcases List.mem_cons.mp hq with rfl | hmem
        · refine Or.inl ?_
          rw [← hkey]
          exact acontains_aset_self _ _ _
        · exact Or.inr ⟨q, hmem, hkey⟩

theorem acontains_foldl_radius (l : List (ℤ × List ℤ)) :
    ∀ (acc : List (ℤ × ℝ) × ℝ) (id : ℤ), acontains acc.1 id = true →
      acontains (l.foldl (fun acc q =>
        let k := q.1
        let cycle := q.2
        let cycleLen := cycle.length
        let theta := flower acc.1 k cycle
        let hat := aget acc.1 k / (1 / Real.sin (theta / (2 * cycleLen)) - 1)
        let newrad := hat * (1 / Real.sin (Real.pi / cycleLen) - 1)
        let kc := max (newrad / aget acc.1 k) (aget acc.1 k / newrad)
        (aset acc.1 k newrad, max acc.2 kc)) acc).1 id = true := by
  induction l with
  | nil => intro acc id h; exact h
  | cons a t ih =>
      intro acc id h
      rw [List.foldl_cons]
      exact ih _ id (acontains_aset_of _ _ _ _ h)

theorem acontains_radiusPass (internal : List (ℤ × List ℤ))
    (radii : List (ℤ × ℝ)) (id : ℤ) (h : acontains radii id = true) :
    acontains (radiusPass internal radii).1 id = true := by
  unfold radiusPass
  exact acontains_foldl_radius internal (radii, 1) id h

theorem acontains_radiusLoop (internal : List (ℤ × List ℤ)) :
    ∀ (fuel : ℕ) (radii radii' : List (ℤ × ℝ)),
      radiusLoop internal fuel radii = some radii' →
      ∀ id, acontains radii id = true → acontains radii' id = true := by
  intro fuel
  induction fuel with
  | zero =>
      intro radii radii' h
      exact absurd h (by simp [radiusLoop])
  | succ f ih =>
      intro radii radii' h id hid
      unfold radiusLoop at h
      dsimp only at h
      split at h
      · exact ih _ _ h id (acontains_radiusPass internal radii id hid)
      · injection h with h'
        subst h'
        exact acontains_radiusPass internal radii id hid

theorem alookup_packOutput (radii : List (ℤ × ℝ)) (pl : List (ℤ × ℂ))
    (id : ℤ) (r : ℝ) (h : alookup radii id = some r) :
    alookup (packOutput radii pl) id = some ((alookup pl id).getD 0, r) := by
  induction radii with
  | nil => exact absurd h (by simp [alookup])
  | cons p rest ih =>
      obtain ⟨k, v⟩ := p
      by_cases hk : k = id
      · subst hk
        have hv : v = r := by
          have h' : (if k = k then some v else alookup rest k) = some r := h
          rw [if_pos rfl] at h'
          injection h'
        subst hv
        show (if k = k then some ((alookup pl k).getD 0, v)
          else alookup (packOutput rest pl) k) = some ((alookup pl k).getD 0, v)
        rw [if_pos rfl]
      · have h' : alookup rest id = some r := by
          have h'' : (if k = id then some v else alookup rest id) = some r := h
          rwa [if_neg hk] at h''
        show (if k = id then some ((alookup pl k).getD 0, v)
          else alookup (packOutput rest pl) id) = some ((alookup pl id).getD 0, r)
        rw [if_neg hk]
        exact ih h'

/-- C10: whenever `CirclePack` returns a packing, the output map has an
entry for every id appearing in the internal or external input maps — the
output rows come one per key of the solved radius map, which contains all
those ids — and any id never reached by the placement recursion (absent
from the placements map) still gets a row, with the default-constructed
centre `0` and its solved radius, rather than being dropped or raising an
error. -/
theorem circlePack_coverage (internal : List (ℤ × List ℤ))
    (external : List (ℤ × ℝ)) (fuel : ℕ) (out : List (ℤ × (ℂ × ℝ)))
    (hres : CirclePack internal external fuel = Except.ok (some out))
    (id : ℤ)
    (hid : (∃ q ∈ internal, q.1 = id) ∨ (∃ p ∈ external, p.1 = id)) :
    ∃ radii pl, out = packOutput radii pl ∧
      (∃ c r, alookup out id = some (c, r)) ∧
      (alookup pl id = none → ∃ r, alookup out id = some (0, r)) := by
  unfold CirclePack at hres
  rcases hf : external.find? (fun p => !(decide (gtZero p.2))) with _ | p
  case some =>
    rw [hf] at hres
    exact absurd hres (by simp)
  rw [hf] at hres
  rcases hg : internal.find? (fun q => acontains external q.1) with _ | q
  case some =>
    rw [hg] at hres
    exact absurd hres (by simp)
  rw [hg] at hres
  dsimp only at hres
  rcases hr : radiusLoop internal fuel
      (internal.foldl (fun m q => aset m q.1 (1 : ℝ)) external) with _ | radii
  case none =>
    rw [hr] at hres
    exact absurd hres (by simp)
  rw [hr] at hres
  rcases internal with _ | ⟨⟨k1, cycle1⟩, itail⟩
  case nil => exact absurd hres (by simp)
  dsimp only at hres
  split at hres
  · exact absurd hres (by simp)
  rename_i pl1 hp1
  split at hres
  · exact absurd hres (by simp)
  rename_i pl2 hp2
  have hout : out = packOutput radii pl2 := by
    injection hres with h1
    injection h1 with h2
    exact h2.symm
  have hkey0 : acontains
      (((k1, cycle1) :: itail).foldl (fun m q => aset m q.1 (1 : ℝ)) external)
      id = true := by
    apply acontains_foldl_aset
    rcases hid with ⟨q, hq, hkey⟩ | ⟨p, hp, hkey⟩
    · exact Or.inr ⟨q, hq, hkey⟩
    · refine Or.inl ?_
      rw [← hkey]
      exact acontains_of_mem external p hp
  have hkey : acontains radii id = true :=
    acontains_radiusLoop _ fuel _ radii hr id hkey0
  obtain ⟨r, hrv⟩ := (acontains_iff radii id).mp hkey
  refine ⟨radii, pl2, hout, ?_, ?_⟩
  · rw [hout, alookup_packOutput radii pl2 id r hrv]
    exact ⟨_, _, rfl⟩
  · intro hnone
    rw [hout, alookup_packOutput radii pl2 id r hrv, hnone]
    exact ⟨r, rfl⟩

/- Concrete run of `CirclePack` on a tetrahedral 3-flower (one internal
circle tangent to three unit circles, plus the unreached external id 9):
the radius iteration converges in exactly two sweeps, to internal radius
`2/√3 - 1`. -/

theorem arccos_half : Real.arccos (1 / 2) = Real.pi / 3 := by
  rw [← Real.cos_pi_div_three]
  exact Real.arccos_cos (by positivity) (by linarith [Real.pi_pos])

theorem arccos_neg_half : Real.arccos (-(1 / 2)) = 2 * Real.pi / 3 := by
  rw [Real.arccos_neg, arccos_half]
  ring

theorem acxyz_eval (rx ry rz : ℝ) (hden : ¬ almostZero (2 * (rx + ry) * (rx + rz)))
    (t : ℝ) (ht : ((rx + ry) ^ 2 + (rx + rz) ^ 2 - (ry + rz) ^ 2) /
      (2 * (rx + ry) * (rx + rz)) = t)
    (hin : ¬ (t < -1 ∨ 1 < t)) : acxyz rx ry rz = Real.arccos t := by
  unfold acxyz
  rw [if_neg hden]
  dsimp only
  rw [ht, if_neg hin]

theorem acxyz_111 : acxyz 1 1 1 = Real.pi / 3 := by
  rw [acxyz_eval 1 1 1 (by norm_num [almostZero, TOL]) (1 / 2) (by norm_num)
    (by norm_num), arccos_half]

theorem pack3_flower1 : flower [(0, (1 : ℝ)), (1, 1), (2, 1), (3, 1), (9, 7)] 0 [1, 2, 3] =
    Real.pi := by
  unfold flower
  dsimp only
  have hr : List.range ([(1 : ℤ), 2, 3].length) = [0, 1, 2] := rfl
  rw [hr]
  simp [List.foldl, aget, alookup, acxyz_111]
  ring

theorem pack3_pass1 : radiusPass [(0, [1, 2, 3])] [(0, (1 : ℝ)), (1, 1), (2, 1), (3, 1), (9, 7)] =
    ([(0, 2 / Real.sqrt 3 - 1), (1, 1), (2, 1), (3, 1), (9, 7)],
      max 1 (max ((2 / Real.sqrt 3 - 1) / 1) (1 / (2 / Real.sqrt 3 - 1)))) := by
  have hs3 : Real.sqrt 3 * Real.sqrt 3 = 3 := Real.mul_self_sqrt (by norm_num)
  have hs3pos : 0 < Real.sqrt 3 := Real.sqrt_pos.mpr (by norm_num)
  unfold radiusPass
  rw [List.foldl_cons, List.foldl_nil]
  dsimp only
  rw [pack3_flower1]
  norm_num [aget, alookup, aset]

example : place [(0, [1, 2, 3])] [(0, 1)] 1 ([] : List (ℤ × ℂ)) 5 = some [] := rfl

theorem sqrt3_facts : Real.sqrt 3 * Real.sqrt 3 = 3 ∧ (1.7 : ℝ) < Real.sqrt 3 ∧
    Real.sqrt 3 < 1.8 := by
  have hs3 : Real.sqrt 3 * Real.sqrt 3 = 3 := Real.mul_self_sqrt (by norm_num)
  have hnn : 0 ≤ Real.sqrt 3 := Real.sqrt_nonneg 3
  refine ⟨hs3, ?_, ?_⟩
  · nlinarith [hs3, hnn]
  · nlinarith [hs3, hnn]

theorem rad1_pos : (0 : ℝ) < 2 / Real.sqrt 3 - 1 := by
  obtain ⟨hs3, h17, h18⟩ := sqrt3_facts
  have hpos : (0:ℝ) < Real.sqrt 3 := by linarith
  rw [lt_sub_iff_add_lt, zero_add, lt_div_iff hpos]
  nlinarith

theorem rad1_lt : 2 / Real.sqrt 3 - 1 < (0.2 : ℝ) := by
  obtain ⟨hs3, h17, h18⟩ := sqrt3_facts
  have hpos : (0:ℝ) < Real.sqrt 3 := by linarith
  rw [sub_lt_iff_lt_add, div_lt_iff hpos]
  nlinarith

theorem pack3_cond1 : max 1 (max ((2 / Real.sqrt 3 - 1) / 1) (1 / (2 / Real.sqrt 3 - 1))) >
    Tolerance := by
  have h5 : (5 : ℝ) < 1 / (2 / Real.sqrt 3 - 1) := by
    rw [lt_div_iff rad1_pos]
    nlinarith [rad1_lt]
  have : Tolerance < (5 : ℝ) := by norm_num [Tolerance]
  calc Tolerance < 5 := this
    _ < 1 / (2 / Real.sqrt 3 - 1) := h5
    _ ≤ max ((2 / Real.sqrt 3 - 1) / 1) (1 / (2 / Real.sqrt 3 - 1)) := le_max_right _ _
    _ ≤ max 1 (max ((2 / Real.sqrt 3 - 1) / 1) (1 / (2 / Real.sqrt 3 - 1))) := le_max_right _ _

theorem acxyz_r11 : acxyz (2 / Real.sqrt 3 - 1) 1 1 = 2 * Real.pi / 3 := by
  obtain ⟨hs3, h17, h18⟩ := sqrt3_facts
  have hpos : (0:ℝ) < Real.sqrt 3 := by linarith
  have hne : Real.sqrt 3 ≠ 0 := ne_of_gt hpos
  have h1 : (2 / Real.sqrt 3 - 1) + 1 = 2 / Real.sqrt 3 := by ring
  have hden : ¬ almostZero (2 * ((2 / Real.sqrt 3 - 1) + 1) * ((2 / Real.sqrt 3 - 1) + 1)) := by
    rw [h1]
    unfold almostZero TOL
    rw [not_lt]
    have hd : 2 * (2 / Real.sqrt 3) * (2 / Real.sqrt 3) = 8 / 3 := by
      field_simp
      nlinarith
    rw [hd]
    rw [abs_of_pos (by norm_num)]
    norm_num
  have ht : (((2 / Real.sqrt 3 - 1) + 1) ^ 2 + ((2 / Real.sqrt 3 - 1) + 1) ^ 2 -
      ((1 : ℝ) + 1) ^ 2) / (2 * ((2 / Real.sqrt 3 - 1) + 1) * ((2 / Real.sqrt 3 - 1) + 1)) =
      -(1 / 2) := by
    rw [h1]
    have hsq : (2 / Real.sqrt 3) ^ 2 = 4 / 3 := by
      rw [div_pow]
      rw [show Real.sqrt 3 ^ 2 = 3 from by nlinarith]
      norm_num
    have hd : 2 * (2 / Real.sqrt 3) * (2 / Real.sqrt 3) = 8 / 3 := by
      field_simp
      nlinarith
    rw [hsq, hd]
    norm_num
  rw [acxyz_eval (2 / Real.sqrt 3 - 1) 1 1 hden (-(1 / 2)) ht (by norm_num),
    arccos_neg_half]

theorem pack3_flower2 : flower [(0, 2 / Real.sqrt 3 - 1), (1, 1), (2, 1), (3, 1), (9, 7)] 0
    [1, 2, 3] = 2 * Real.pi := by
  unfold flower
  dsimp only
  have hr : List.range ([(1 : ℤ), 2, 3].length) = [0, 1, 2] := rfl
  rw [hr]
  simp [List.foldl, aget, alookup, acxyz_r11]
  ring

theorem pack3_pass2 : radiusPass [(0, [1, 2, 3])]
    [(0, 2 / Real.sqrt 3 - 1), (1, 1), (2, 1), (3, 1), (9, 7)] =
    ([(0, 2 / Real.sqrt 3 - 1), (1, 1), (2, 1), (3, 1), (9, 7)], 1) := by
  have hne : 2 / Real.sqrt 3 - 1 ≠ 0 := ne_of_gt rad1_pos
  unfold radiusPass
  rw [List.foldl_cons, List.foldl_nil]
  dsimp only
  rw [pack3_flower2]
  norm_num [aget, alookup, aset]
  rw [show (2 : ℝ) * Real.pi / 6 = Real.pi / 3 by ring]
  rw [Real.sin_pi_div_three]
  rw [show ((Real.sqrt 3 / 2))⁻¹ - 1 = 2 / Real.sqrt 3 - 1 from by rw [inv_div]]
  rw [div_self hne]
  norm_num [div_self hne]
theorem pack3_loop : radiusLoop [(0, [1, 2, 3])] 2
    [(0, (1 : ℝ)), (1, 1), (2, 1), (3, 1), (9, 7)] =
    some [(0, 2 / Real.sqrt 3 - 1), (1, 1), (2, 1), (3, 1), (9, 7)] := by
  have e1 : radiusLoop [(0, [1, 2, 3])] 2
      [(0, (1 : ℝ)), (1, 1), (2, 1), (3, 1), (9, 7)] =
      (if (radiusPass [(0, [1, 2, 3])] [(0, (1 : ℝ)), (1, 1), (2, 1), (3, 1), (9, 7)]).2 >
          Tolerance
       then radiusLoop [(0, [1, 2, 3])] 1
         (radiusPass [(0, [1, 2, 3])] [(0, (1 : ℝ)), (1, 1), (2, 1), (3, 1), (9, 7)]).1
       else some
         (radiusPass [(0, [1, 2, 3])] [(0, (1 : ℝ)), (1, 1), (2, 1), (3, 1), (9, 7)]).1) := rfl
  rw [e1, pack3_pass1]
  dsimp only
  rw [if_pos pack3_cond1]
  have e2 : radiusLoop [(0, [1, 2, 3])] 1
      [(0, 2 / Real.sqrt 3 - 1), (1, 1), (2, 1), (3, 1), (9, 7)] =
      (if (radiusPass [(0, [1, 2, 3])]
          [(0, 2 / Real.sqrt 3 - 1), (1, 1), (2, 1), (3, 1), (9, 7)]).2 > Tolerance
       then radiusLoop [(0, [1, 2, 3])] 0
         (radiusPass [(0, [1, 2, 3])]
           [(0, 2 / Real.sqrt 3 - 1), (1, 1), (2, 1), (3, 1), (9, 7)]).1
       else some (radiusPass [(0, [1, 2, 3])]
         [(0, 2 / Real.sqrt 3 - 1), (1, 1), (2, 1), (3, 1), (9, 7)]).1) := rfl
  rw [e2, pack3_pass2]
  dsimp only
  rw [if_neg (by norm_num [Tolerance])]

theorem pack3_exists : ∃ out, CirclePack [(0, [1, 2, 3])]
    [(1, 1), (2, 1), (3, 1), (9, 7)] 2 = Except.ok (some out) := by
  have hfind1 : List.find? (fun p => !(decide (gtZero p.2)))
      ([(1, 1), (2, 1), (3, 1), (9, 7)] : List (ℤ × ℝ)) = none := by
    have h1 : gtZero (1 : ℝ) := (gtZero_iff 1).mpr (by norm_num [TOL])
    have h7 : gtZero (7 : ℝ) := (gtZero_iff 7).mpr (by norm_num [TOL])
    simp [List.find?, h1, h7]
  have hfind2 : List.find? (fun q => acontains
      ([(1, 1), (2, 1), (3, 1), (9, 7)] : List (ℤ × ℝ)) q.1)
      ([(0, [1, 2, 3])] : List (ℤ × List ℤ)) = none := by
    simp [List.find?, acontains, alookup]
  have hfold : ([(0, [1, 2, 3])] : List (ℤ × List ℤ)).foldl
      (fun m q => aset m q.1 (1 : ℝ)) [(1, 1), (2, 1), (3, 1), (9, 7)] =
      [(0, (1 : ℝ)), (1, 1), (2, 1), (3, 1), (9, 7)] := by
    simp [aset]
  unfold CirclePack
  rw [hfind1, hfind2]
  dsimp only
  rw [hfold, pack3_loop]
  exact ⟨_, rfl⟩
theorem circlePack_coverage_witness :
    ∃ out, CirclePack [(0, [1, 2, 3])] [(1, 1), (2, 1), (3, 1), (9, 7)] 2 =
        Except.ok (some out) ∧ ∃ c r, alookup out 9 = some (c, r) := by
  obtain ⟨out, hout⟩ := pack3_exists
  obtain ⟨_, _, _, hentry, _⟩ := circlePack_coverage [(0, [1, 2, 3])]
    [(1, 1), (2, 1), (3, 1), (9, 7)] 2 out hout 9
    (Or.inr ⟨(9, 7), by simp, rfl⟩)
  exact ⟨out, hout, hentry⟩

/- ================================================================
   pmenzel_circle_pack.cpp — the progressive front-insertion layouter.

   The pointer-linked `Node` objects are modelled as an arena (a list of
   records) addressed by index; `Node*` becomes `Option ℕ` (`none` is
   NULL).  The `insertnext` chain is the input order 0,1,2,…; `next`/
   `prev` form the packing front.  The unbounded `while (c)` loop and the
   two interior do-while walks take explicit fuel and return `none` when
   it runs out (or on a NULL dereference the C++ would crash on).
   ================================================================ -/

end Pads

namespace PM

/-- `const double INTERSECTION_TOL = 1.0e-4`. -/
def INTERSECTION_TOL : ℝ := 1e-4

/-- `FLT_MAX`, the initial `nearestdist` of the centre scan. -/
def FLT_MAX : ℝ := 2 ^ 128 - 2 ^ 104

/-- One `Node`: position, radius and the three links. -/
structure PNode where
  x : ℝ
  y : ℝ
  radius : ℝ
  next : Option ℕ
  prev : Option ℕ
  insertnext : Option ℕ

/-- Read node `i` of the arena (a zeroed node out of range; the source
never reads out of range). -/
def getN (ar : List PNode) (i : ℕ) : PNode :=
  ar.getD i ⟨0, 0, 0, none, none, none⟩

/-- Field update of node `i`. -/
def modifyN (ar : List PNode) (i : ℕ) (u : PNode → PNode) : List PNode :=
  ar.set i (u (getN ar i))

def setX (ar : List PNode) (i : ℕ) (v : ℝ) : List PNode :=
  modifyN ar i fun n => { n with x := v }

def setY (ar : List PNode) (i : ℕ) (v : ℝ) : List PNode :=
  modifyN ar i fun n => { n with y := v }

def setNext (ar : List PNode) (i : ℕ) (v : Option ℕ) : List PNode :=
  modifyN ar i fun n => { n with next := v }

def setPrev (ar : List PNode) (i : ℕ) (v : Option ℕ) : List PNode :=
  modifyN ar i fun n => { n with prev := v }

/-- `Node::intersects`: `dr² - dx² - dy² > INTERSECTION_TOL`. -/
def nIntersects (p q : PNode) : Prop :=
  (p.radius + q.radius) * (p.radius + q.radius) -
    (p.x - q.x) * (p.x - q.x) - (p.y - q.y) * (p.y - q.y) > INTERSECTION_TOL

/-- `place_circle(a, b, c)`: place `c` tangent to `a` and `b` (writes only
`c->x` and `c->y`). -/
noncomputable def place_circle (ar : List PNode) (a b c : ℕ) : List PNode :=
  let na := getN ar a
  let nb := getN ar b
  let nc := getN ar c
  let da := nb.radius + nc.radius
  let db := na.radius + nc.radius
  let dx := nb.x - na.x
  let dy := nb.y - na.y
  let dc := Real.sqrt (dx * dx + dy * dy)
  if dc > 0 then
    let cosv := (db * db + dc * dc - da * da) / (2 * db * dc)
    let theta := Real.arccos cosv
    let xx := cosv * db
    let h := Real.sin theta * db
    let dx' := dx / dc
    let dy' := dy / dc
    setY (setX ar c (na.x + xx * dx' + h * dy')) c (na.y + xx * dy' - h * dx')
  else
    setY (setX ar c (na.x + db)) c na.y

/-- `Node::place_after(a)`: insert `c` into the front after `a`. -/
def place_after (ar : List PNode) (c a : ℕ) : List PNode :=
  let n := (getN ar a).next
  let ar1 := setNext ar a (some c)
  let ar2 := setPrev ar1 c (some a)
  let ar3 := setNext ar2 c n
  match n with
  | none => ar3
  | some m => setPrev ar3 m (some c)

/-- `x->splice(a)`: `x->next = a; a->prev = x`. -/
def splice (ar : List PNode) (x a : ℕ) : List PNode :=
  setPrev (setNext ar x (some a)) a (some x)

/-- The nearest-to-origin do-while scan over the front cycle starting (and
ending) at `a`. -/
noncomputable def nearestScan (ar : List PNode) (a : ℕ) :
    ℕ → ℕ → ℝ → ℕ → Option ℕ
  | 0, _, _, _ => none
  | fuel + 1, n, bestd, besti =>
      let d := Real.sqrt ((getN ar n).x * (getN ar n).x +
        (getN ar n).y * (getN ar n).y)
      let bd := if d < bestd then d else bestd
      let bi := if d < bestd then n else besti
      match (getN ar n).next with
      | none => none
      | some n' => if n' = a then some bi else nearestScan ar a fuel n' bd bi

/-- The intersection do-while walk: `j` forward from `b->next`, `k`
backward from `a->prev`, guided by the accumulated front lengths `sj`,
`sk`; exits at the first front circle overlapping `c` (`inl j` or
`inr k`), or with `none` inside `some` when `j` reaches `k->next`. -/
noncomputable def isectWalk (ar : List PNode) (c : ℕ) :
    ℕ → ℕ → ℕ → ℝ → ℝ → Option (Option (ℕ ⊕ ℕ))
  | 0, _, _, _, _ => none
  | fuel + 1, j, k, sj, sk =>
      if sj ≤ sk then
        if nIntersects (getN ar j) (getN ar c) then some (some (Sum.inl j))
        else
          match (getN ar j).next with
          | none => none
          | some j' =>
              if (some j' : Option ℕ) = (getN ar k).next then some none
              else isectWalk ar c fuel j' k (sj + (getN ar j).radius) sk
      else
        if nIntersects (getN ar c) (getN ar k) then some (some (Sum.inr k))
        else
          match (getN ar k).prev with
          | none => none
          | some k' =>
              if (some j : Option ℕ) = (getN ar k').next then some none
              else isectWalk ar c fuel j k' sj (sk + (getN ar k).radius)

/-- The `while (c)` loop of `place_circles`: when `skip` is unset the
front is scanned for the node nearest the origin, then `c` is placed and
the front walked for an overlap; an overlap splices the front and retries
the same `c` with `skip` set, otherwise `c` joins the front and the loop
advances along `insertnext`. -/
noncomputable def placeLoop : ℕ → List PNode → ℕ → ℕ → Option ℕ → Bool →
    Option (List PNode)
  | 0, _, _, _, _, _ => none
  | _ + 1, ar, _, _, none, _ => some ar
  | fuel + 1, ar, a, b, some c, skip =>
      let step : ℕ → ℕ → Option (List PNode) := fun a' b' =>
        let ar1 := place_circle ar a' b' c
        match (getN ar1 b').next, (getN ar1 a').prev with
        | some j0, some k0 =>
            match isectWalk ar1 c (ar1.length + 1) j0 k0
                (getN ar1 b').radius (getN ar1 a').radius with
            | none => none
            | some (some (Sum.inl j)) =>
                placeLoop fuel (splice ar1 a' j) a' j (some c) true
            | some (some (Sum.inr k)) =>
                placeLoop fuel (splice ar1 k b') k b' (some c) true
            | some none =>
                let ar2 := place_after ar1 c a'
                placeLoop fuel ar2 a' c ((getN ar2 c).insertnext) false
        | _, _ => none
      if skip then step a b
      else
        match nearestScan ar a (ar.length + 1) a FLT_MAX a with
        | none => none
        | some a' =>
            match (getN ar a').next with
            | none => none
            | some b' => step a' b'

/-- `place_circles(firstnode)`: the bootstrap of the first three circles,
then the main loop. -/
noncomputable def place_circles (ar0 : List PNode) (fuel : ℕ) :
    Option (List PNode) :=
  let ar1 := setX ar0 0 (-1 * (getN ar0 0).radius)
  match (getN ar1 0).insertnext with
  | none => some ar1
  | some b =>
      let ar2 := setY (setX ar1 b (getN ar1 b).radius) b 0
      match (getN ar2 b).insertnext with
      | none => some ar2
      | some c =>
          let ar3 := place_circle ar2 0 b c
          match (getN ar3 c).insertnext with
          | none => some ar3
          | some c' =>
              let ar4 := setPrev (setNext (setPrev (setNext (setPrev (setNext
                ar3 0 (some c)) 0 (some b)) b (some 0)) b (some c)) c (some b))
                c (some 0)
              placeLoop fuel ar4 0 c (some c') false

/-- The arena `do_progressive_layout` builds: node `i` carries the `i`-th
input radius and `insertnext` points at node `i+1`. -/
def buildArena (radii : List ℝ) : List PNode :=
  (List.range radii.length).map fun i =>
    ⟨0, 0, radii.getD i 0, none, none,
      if i + 1 < radii.length then some (i + 1) else none⟩

/-- The read-back loop of `do_progressive_layout`: walk the `insertnext`
chain collecting `(x, y, radius)` rows. -/
def readRows (ar : List PNode) : ℕ → Option ℕ → List (ℝ × ℝ × ℝ)
  | 0, _ => []
  | _ + 1, none => []
  | fuel + 1, some i =>
      ((getN ar i).x, (getN ar i).y, (getN ar i).radius) ::
        readRows ar fuel (getN ar i).insertnext

/-- `do_progressive_layout(radii)`: build the arena, run `place_circles`,
read the rows back in `insertnext` order (the `radii(0)` access faults on
an empty input, hence `none` there). -/
noncomputable def do_progressive_layout : List ℝ → ℕ → Option (List (ℝ × ℝ × ℝ))
  | [], _ => none
  | r0 :: rest, fuel =>
      match place_circles (buildArena (r0 :: rest)) fuel with
      | none => none
      | some ar => some (readRows ar (r0 :: rest).length (some 0))

end PM

namespace PM

/-- The preserved part of the arena: every node's radius and insertnext
link. -/
def sameRI (ar ar' : List PNode) : Prop :=
  ar'.length = ar.length ∧
  ∀ i, (getN ar' i).radius = (getN ar i).radius ∧
    (getN ar' i).insertnext = (getN ar i).insertnext

theorem sameRI_refl (ar : List PNode) : sameRI ar ar :=
  ⟨rfl, fun _ => ⟨rfl, rfl⟩⟩

theorem sameRI_trans {a b c : List PNode} (h1 : sameRI a b) (h2 : sameRI b c) :
    sameRI a c :=
  ⟨h2.1.trans h1.1, fun i =>
    ⟨(h2.2 i).1.trans (h1.2 i).1, (h2.2 i).2.trans (h1.2 i).2⟩⟩

theorem sameRI_modify (ar : List PNode) (i : ℕ) (u : PNode → PNode)
    (hu : ∀ n, (u n).radius = n.radius ∧ (u n).insertnext = n.insertnext) :
    sameRI ar (modifyN ar i u) := by
  refine ⟨List.length_set ar i _, ?_⟩
  intro j
  unfold modifyN getN
  by_cases hlen : i < ar.length
  · by_cases hij : j = i
    · subst hij
      rw [SelectNO.getD_set_self ar j _ _ hlen]
      exact hu _
    · rw [SelectNO.getD_set_ne ar j i _ _ (fun h => hij h.symm)]
      exact ⟨rfl, rfl⟩
  · rw [List.set_eq_of_length_le (le_of_not_lt hlen)]
    exact ⟨rfl, rfl⟩

theorem sameRI_setX (ar : List PNode) (i : ℕ) (v : ℝ) :
    sameRI ar (setX ar i v) :=
  sameRI_modify ar i _ (fun _ => ⟨rfl, rfl⟩)

theorem sameRI_setY (ar : List PNode) (i : ℕ) (v : ℝ) :
    sameRI ar (setY ar i v) :=
  sameRI_modify ar i _ (fun _ => ⟨rfl, rfl⟩)

theorem sameRI_setNext (ar : List PNode) (i : ℕ) (v : Option ℕ) :
    sameRI ar (setNext ar i v) :=
  sameRI_modify ar i _ (fun _ => ⟨rfl, rfl⟩)

theorem sameRI_setPrev (ar : List PNode) (i : ℕ) (v : Option ℕ) :
    sameRI ar (setPrev ar i v) :=
  sameRI_modify ar i _ (fun _ => ⟨rfl, rfl⟩)

theorem sameRI_place_circle (ar : List PNode) (a b c : ℕ) :
    sameRI ar (place_circle ar a b c) := by
  unfold place_circle
  dsimp only
  split
  · exact sameRI_trans (sameRI_setX ar c _) (sameRI_setY _ c _)
  · exact sameRI_trans (sameRI_setX ar c _) (sameRI_setY _ c _)

theorem sameRI_place_after (ar : List PNode) (c a : ℕ) :
    sameRI ar (place_after ar c a) := by
  unfold place_after
  dsimp only
  have h3 : sameRI ar (setNext (setPrev (setNext ar a (some c)) c (some a)) c
      ((getN ar a).next)) :=
    sameRI_trans (sameRI_setNext ar a _)
      (sameRI_trans (sameRI_setPrev _ c _) (sameRI_setNext _ c _))
  split
  · exact h3
  · exact sameRI_trans h3 (sameRI_setPrev _ _ _)

theorem sameRI_splice (ar : List PNode) (x a : ℕ) :
    sameRI ar (splice ar x a) :=
  sameRI_trans (sameRI_setNext ar x _) (sameRI_setPrev _ a _)

theorem sameRI_placeLoop :
    ∀ (fuel : ℕ) (ar : List PNode) (a b : ℕ) (copt : Option ℕ) (skip : Bool)
      (ar' : List PNode), placeLoop fuel ar a b copt skip = some ar' →
      sameRI ar ar' := by
  intro fuel
  induction fuel with
  | zero =>
      intro ar a b copt skip ar' h
      exact absurd h (by simp [placeLoop])
  | succ f ih =>
      intro ar a b copt skip ar' h
      rcases copt with _ | c
      · unfold placeLoop at h
        injection h with h
        subst h
        exact sameRI_refl ar
      · unfold placeLoop at h
        dsimp only at h
        split at h
        · split at h
          · split at h
            · exact absurd h (by simp)
            · rename_i j hj
              exact sameRI_trans
                (sameRI_trans (sameRI_place_circle ar a b c)
                  (sameRI_splice _ a j))
                (ih _ _ _ _ _ _ h)
            · rename_i k hk
              exact sameRI_trans
                (sameRI_trans (sameRI_place_circle ar a b c)
                  (sameRI_splice _ k b))
                (ih _ _ _ _ _ _ h)
            · exact sameRI_trans
                (sameRI_trans (sameRI_place_circle ar a b c)
                  (sameRI_place_after _ c a))
                (ih _ _ _ _ _ _ h)
          all_goals exact absurd h (by simp)
        · split at h
          · exact absurd h (by simp)
          rename_i a' hscan
          split at h
          · exact absurd h (by simp)
          rename_i b' hb'
          split at h
          · split at h
            · exact absurd h (by simp)
            · rename_i j hj
              exact sameRI_trans
                (sameRI_trans (sameRI_place_circle ar a' b' c)
                  (sameRI_splice _ a' j))
                (ih _ _ _ _ _ _ h)
            · rename_i k hk
              exact sameRI_trans
                (sameRI_trans (sameRI_place_circle ar a' b' c)
                  (sameRI_splice _ k b'))
                (ih _ _ _ _ _ _ h)
            · exact sameRI_trans
                (sameRI_trans (sameRI_place_circle ar a' b' c)
                  (sameRI_place_after _ c a'))
                (ih _ _ _ _ _ _ h)
          all_goals exact absurd h (by simp)

theorem sameRI_place_circles (ar0 : List PNode) (fuel : ℕ)
    (ar' : List PNode) (h : place_circles ar0 fuel = some ar') :
    sameRI ar0 ar' := by
  unfold place_circles at h
  dsimp only at h
  split at h
  · injection h with h
    subst h
    exact sameRI_setX ar0 0 _
  rename_i b hb
  split at h
  · injection h with h
    subst h
    refine sameRI_trans ?_ (sameRI_setY _ b _)
    refine sameRI_trans ?_ (sameRI_setX _ b _)
    exact sameRI_setX ar0 0 _
  rename_i c hc
  split at h
  · injection h with h
    subst h
    refine sameRI_trans ?_ (sameRI_place_circle _ 0 b c)
    refine sameRI_trans ?_ (sameRI_setY _ b _)
    refine sameRI_trans ?_ (sameRI_setX _ b _)
    exact sameRI_setX ar0 0 _
  rename_i c' hc'
  refine sameRI_trans ?_ (sameRI_placeLoop fuel _ 0 c (some c') false ar' h)
  refine sameRI_trans ?_ (sameRI_setPrev _ c _)
  refine sameRI_trans ?_ (sameRI_setNext _ c _)
  refine sameRI_trans ?_ (sameRI_setPrev _ b _)
  refine sameRI_trans ?_ (sameRI_setNext _ b _)
  refine sameRI_trans ?_ (sameRI_setPrev _ 0 _)
  refine sameRI_trans ?_ (sameRI_setNext _ 0 _)
  refine sameRI_trans ?_ (sameRI_place_circle _ 0 b c)
  refine sameRI_trans ?_ (sameRI_setY _ b _)
  refine sameRI_trans ?_ (sameRI_setX _ b _)
  exact sameRI_setX ar0 0 _

end PM

namespace PM

theorem buildArena_get (radii : List ℝ) (i : ℕ) (h : i < radii.length) :
    getN (buildArena radii) i =
      ⟨0, 0, radii.getD i 0, none, none,
        if i + 1 < radii.length then some (i + 1) else none⟩ := by
  unfold getN buildArena
  rw [SelectNO.getD_map_range]
  rw [if_pos h]

theorem buildArena_length (radii : List ℝ) :
    (buildArena radii).length = radii.length := by
  unfold buildArena
  rw [List.length_map, List.length_range]

theorem readRows_spec (radii : List ℝ) (ar : List PNode)
    (hsame : sameRI (buildArena radii) ar) :
    ∀ (cnt i : ℕ), i + cnt = radii.length →
      (readRows ar cnt (some i)).length = cnt ∧
      ∀ t, t < cnt → ((readRows ar cnt (some i)).getD t (0, 0, 0)).2.2 =
        radii.getD (i + t) 0 := by
  intro cnt
  induction cnt with
  | zero =>
      intro i _
      exact ⟨rfl, fun t ht => absurd ht (by omega)⟩
  | succ n ihn =>
      intro i hi
      have hilt : i < radii.length := by omega
      have hrad : (getN ar i).radius = radii.getD i 0 := by
        rw [(hsame.2 i).1, buildArena_get radii i hilt]
      have hlink : (getN ar i).insertnext =
          if i + 1 < radii.length then some (i + 1) else none := by
        rw [(hsame.2 i).2, buildArena_get radii i hilt]
      have hread : readRows ar (n + 1) (some i) =
          ((getN ar i).x, (getN ar i).y, (getN ar i).radius) ::
            readRows ar n (getN ar i).insertnext := rfl
      cases n with
      | zero =>
          rw [hread]
          refine ⟨?_, ?_⟩
          · show (readRows ar 0 (getN ar i).insertnext).length + 1 = 1
            rw [show readRows ar 0 (getN ar i).insertnext = [] from rfl]
            rfl
          · intro t ht
            have ht0 : t = 0 := by omega
            subst ht0
            show (getN ar i).radius = radii.getD (i + 0) 0
            rw [hrad, Nat.add_zero]
      | succ m =>
          have hi1 : i + 1 < radii.length := by omega
          rw [hread, hlink, if_pos hi1]
          obtain ⟨hlen, hval⟩ := ihn (i + 1) (by omega)
          refine ⟨?_, ?_⟩
          · show (readRows ar (m + 1) (some (i + 1))).length + 1 = m + 1 + 1
            rw [hlen]
          · intro t ht
            cases t with
            | zero =>
                show (getN ar i).radius = radii.getD (i + 0) 0
                rw [hrad, Nat.add_zero]
            | succ u =>
                show ((readRows ar (m + 1) (some (i + 1))).getD u (0, 0, 0)).2.2 =
                  radii.getD (i + (u + 1)) 0
                rw [hval u (by omega)]
                congr 1
                omega

/-- C8: order and radius preservation of `do_progressive_layout`.  For
every non-empty radius list, whenever the layout run completes within its
fuel it returns exactly one row per input radius, in input order: row `i`
carries the `i`-th input radius unchanged (`place_circles` writes only
positions and front links, never `radius` or `insertnext`, and the rows
are read back along the untouched `insertnext` chain `0,1,2,…`).  Only
`x` and `y` are computed. -/
theorem progressive_layout_spec (radii : List ℝ) (fuel : ℕ)
    (rows : List (ℝ × ℝ × ℝ)) (hne : radii ≠ [])
    (hrun : do_progressive_layout radii fuel = some rows) :
    rows.length = radii.length ∧
    ∀ i, i < radii.length →
      (rows.getD i (0, 0, 0)).2.2 = radii.getD i 0 := by
  rcases radii with _ | ⟨r0, rest⟩
  · exact absurd rfl hne
  rw [do_progressive_layout] at hrun
  split at hrun
  · exact absurd hrun (by simp)
  rename_i ar har
  have hsame := sameRI_place_circles _ fuel ar har
  have hall := readRows_spec (r0 :: rest) ar hsame (r0 :: rest).length 0
    (Nat.zero_add _)
  injection hrun with hrun
  subst hrun
  refine ⟨hall.1, fun i hi => ?_⟩
  have hv := hall.2 i hi
  rwa [Nat.zero_add] at hv

/-- Witness for C8 at a concrete input: two circles of radii 1 and 2; the
run completes (the two-node bootstrap returns before the main loop), two
rows come back, and row 1 keeps radius 2. -/
theorem progressive_layout_spec_witness :
    ([(1 : ℝ), 2] : List ℝ) ≠ [] ∧
    ∃ rows, do_progressive_layout [(1 : ℝ), 2] 1 = some rows ∧
      rows.length = 2 ∧ (rows.getD 1 (0, 0, 0)).2.2 = 2 := by
  obtain ⟨rows, hrun⟩ :
      ∃ rows, do_progressive_layout [(1 : ℝ), 2] 1 = some rows := ⟨_, rfl⟩
  have h := progressive_layout_spec [(1 : ℝ), 2] 1 rows (by simp) hrun
  refine ⟨by simp, rows, hrun, by simpa using h.1, ?_⟩
  have := h.2 1 (by norm_num)
  simpa using this

end PM
